import Mathlib

/-
Verification development for the Fast-Timetable-Website repository.

The definitions below are a shallow embedding of the sheet-to-schedule
parser (lib/sheets.js: parseClassroomData, extractClassCode, searchClasses,
getDaySchedule, searchAcrossAllDays), of the free-room computation
(components/StudentTimetable.js: findFreeRoomsForTimeRange and its local
toMinutes helper, parseTimeToMinutes), and of the week-wide fetch branch of
the API route (pages/api: handler, action=fetch, day=all).

JavaScript strings are modelled as lists of characters (JStr); the JS
string operations used by the source (trim, toLowerCase, includes, split
on a single character, startsWith) are given explicit executable models.
Nullable JS values are Option; code that can throw is Except.
-/

abbrev JStr := List Char

deriving instance DecidableEq for Except

/-- Model of the character class matched by the JS regex token backslash-w:
ASCII letters, digits and underscore. -/
def isWordChar (c : Char) : Bool :=
  (decide ('a' ≤ c) && decide (c ≤ 'z')) ||
  (decide ('A' ≤ c) && decide (c ≤ 'Z')) ||
  (decide ('0' ≤ c) && decide (c ≤ '9')) ||
  decide (c = '_')

/-- ASCII digit test, model of the JS regex token backslash-d. -/
def isDigitCh (c : Char) : Bool := decide ('0' ≤ c) && decide (c ≤ '9')

/-- Numeric value of an ASCII digit character. -/
def digitVal (c : Char) : Nat := c.toNat - '0'.toNat

/-- ASCII lower-casing of one character, model of the effect of
String.prototype.toLowerCase on the ASCII inputs this code handles. -/
def lowerCh (c : Char) : Char :=
  if decide ('A' ≤ c) && decide (c ≤ 'Z') then Char.ofNat (c.toNat + 32) else c

/-- Model of String.prototype.toLowerCase. -/
def jstrToLower (s : JStr) : JStr := s.map lowerCh

/-- Whitespace test used to model String.prototype.trim. -/
def isJsSpace (c : Char) : Bool :=
  decide (c = ' ') || decide (c = '\t') || decide (c = '\n') ||
  decide (c = '\r') || decide (c.toNat = 11) || decide (c.toNat = 12)

/-- Drop leading whitespace. -/
def trimLeft : JStr → JStr
  | [] => []
  | c :: cs => if isJsSpace c then trimLeft cs else c :: cs

/-- Model of String.prototype.trim. -/
def trim (s : JStr) : JStr := ((trimLeft ((trimLeft s).reverse)).reverse)

/-- Does s start with pat (character-wise)? -/
def jstrStartsWith : JStr → JStr → Bool
  | _, [] => true
  | [], _ :: _ => false
  | c :: cs, p :: ps => decide (c = p) && jstrStartsWith cs ps

/-- Model of String.prototype.includes: pat occurs contiguously in s. -/
def jstrIncludes : JStr → JStr → Bool
  | s, pat =>
    if jstrStartsWith s pat then true
    else
      match s with
      | [] => false
      | _ :: cs => jstrIncludes cs pat

/-- Model of String.prototype.split with a single-character separator,
as the JS semantics define it (split of the empty string is one empty
field; a separator at either end produces an empty field there). -/
def splitChar (sep : Char) : JStr → List JStr
  | [] => [[]]
  | c :: cs =>
    if c = sep then [] :: splitChar sep cs
    else
      match splitChar sep cs with
      | [] => [[c]]
      | p :: ps => (c :: p) :: ps

/-- Lexicographic comparison of character lists by code point, the model
used for the default Array.prototype.sort ordering on strings and for the
localeCompare-based comparators of the source (approximating the default
locale collation by code-unit order). -/
def jstrLe : JStr → JStr → Bool
  | [], _ => true
  | _ :: _, [] => false
  | a :: as, b :: bs =>
    if a.toNat < b.toNat then true
    else if b.toNat < a.toNat then false
    else jstrLe as bs

/-- Scanning worker for hasLabWord: prev is the character just before the
current position (none at the start of the string). -/
def hasLabWordAux : Option Char → JStr → Bool
  | prev, l :: a :: b :: rest =>
    if decide (lowerCh l = 'l') && decide (lowerCh a = 'a') &&
       decide (lowerCh b = 'b') &&
       (match prev with
        | none => true
        | some p => !(isWordChar p)) &&
       (match rest with
        | [] => true
        | r :: _ => !(isWordChar r)) then
      true
    else hasLabWordAux (some l) (a :: b :: rest)
  | _, c :: rest => hasLabWordAux (some c) rest
  | _, [] => false

/-- Model of the parser's lab test: the case-insensitive whole-word regex
for the word lab, as used in parseClassroomData (lib/sheets.js line 167). -/
def hasLabWord (s : JStr) : Bool := hasLabWordAux none s

/-- Model of the search engine's lab test: classText lower-cased contains
the substring lab (lib/sheets.js line 267). Note this is a plain substring
test, not a whole-word test. -/
def includesLab (s : JStr) : Bool := jstrIncludes (jstrToLower s) ['l', 'a', 'b']

/-- Stable insertion of x into a list, placing x before the first element
y for which le x y holds. -/
def insSorted (le : α → α → Bool) (x : α) : List α → List α
  | [] => [x]
  | y :: ys => if le x y then x :: y :: ys else y :: insSorted le x ys

/-- Stable insertion sort, the model of the (ES2019-stable)
Array.prototype.sort with a comparator whose non-positive outcomes are
described by le. -/
def insSort (le : α → α → Bool) : List α → List α
  | [] => []
  | x :: xs => insSorted le x (insSort le xs)

/-- Is a list already weakly sorted under le (adjacent pairs)? -/
def chainLe (le : α → α → Bool) : List α → Bool
  | x :: y :: rest => le x y && chainLe le (y :: rest)
  | _ => true

/-- Append-if-absent, the model of Set.prototype.add insertion order. -/
def addUnique (x : JStr) (l : List JStr) : List JStr :=
  if x ∈ l then l else l ++ [x]

-- ## Data model (section 3 of the spec, shapes taken from lib/sheets.js)

/-- Merge metadata optionally attached to a GViz cell; parseClassroomData
reads the keys colSpan, colspan and span (lib/sheets.js line 156). -/
structure SpanMeta where
  colSpan : Option Int := none
  colspan : Option Int := none
  span : Option Int := none
deriving DecidableEq

/-- One GViz cell: v is the value (none models null or undefined; string
values only, matching the sheet content this parser consumes), p is the
optional metadata object. -/
structure Cell where
  v : Option JStr
  p : Option SpanMeta := none
deriving DecidableEq

/-- One GViz row: c is the optional cell array, whose elements may be null. -/
structure Row where
  c : Option (List (Option Cell))
deriving DecidableEq

/-- The GViz table object: rows may be absent. -/
structure SheetTable where
  rows : Option (List Row)
deriving DecidableEq

/-- The unwrapped GViz payload: table may be absent. -/
structure GVizData where
  table : Option SheetTable
deriving DecidableEq

/-- A parsed time slot (parseClassroomData, first pass over row 1). -/
structure TimeSlot where
  index : Nat
  time : JStr
  label : JStr
deriving DecidableEq

/-- One schedule entry for a room at one time-slot column
(parseClassroomData, inner emit loop). -/
structure ScheduleEntry where
  timeIndex : Nat
  time : JStr
  «class» : JStr
  code : JStr
deriving DecidableEq

instance : Inhabited ScheduleEntry := ⟨⟨0, [], [], []⟩⟩

/-- One parsed classroom: name, its schedule entries, and the sorted list
of distinct class codes seen in them. -/
structure Classroom where
  name : JStr
  schedule : List ScheduleEntry
  classes : List JStr
deriving DecidableEq

/-- The result shape of parseClassroomData. -/
structure ParseResult where
  classrooms : List Classroom
  timeSlots : List TimeSlot
deriving DecidableEq

-- ## extractClassCode (lib/sheets.js lines 222-228)
-- Model of the regex: word boundary, 2-4 uppercase letters, hyphen,
-- 1-2 digits, an optional uppercase letter, word boundary; first match,
-- leftmost position first, with the JS backtracking order (greedy
-- letter count 4,3,2; greedy digit count 2,1; optional letter tried
-- with the letter first).

def isUpperCh (c : Char) : Bool := decide ('A' ≤ c) && decide (c ≤ 'Z')

/-- Trailing word-boundary test: the remainder must be empty or start
with a non-word character. -/
def boundaryOk : JStr → Bool
  | [] => true
  | c :: _ => !(isWordChar c)

/-- Try the optional trailing uppercase letter of the code pattern, then
the closing word boundary; acc is the text matched so far. -/
def tryOptLetter (acc : JStr) (rest : JStr) : Option JStr :=
  match rest with
  | c :: rest2 =>
    if isUpperCh c && boundaryOk rest2 then some (acc ++ [c])
    else if boundaryOk rest then some acc else none
  | [] => some acc

/-- Try exactly d digits (d = 2 or 1) after the hyphen, then the optional
letter and closing boundary. -/
def tryDigits (acc : JStr) (rest : JStr) : Option JStr :=
  (match rest with
   | d1 :: d2 :: rest2 =>
     if isDigitCh d1 && isDigitCh d2 then tryOptLetter (acc ++ [d1, d2]) rest2
     else none
   | _ => none).orElse fun _ =>
  (match rest with
   | d1 :: rest1 =>
     if isDigitCh d1 then tryOptLetter (acc ++ [d1]) rest1
     else none
   | _ => none)

/-- Try exactly k uppercase letters at the front of s, then a hyphen,
then the digit part. -/
def tryLetters (k : Nat) (s : JStr) : Option JStr :=
  let letters := s.take k
  if letters.length = k && letters.all isUpperCh then
    match s.drop k with
    | '-' :: rest => tryDigits (letters ++ ['-']) rest
    | _ => none
  else none

/-- Attempt a match of the class-code pattern anchored at the current
position (the opening word boundary has already been checked). -/
def matchCodeHere (s : JStr) : Option JStr :=
  ((tryLetters 4 s).orElse fun _ => tryLetters 3 s).orElse fun _ => tryLetters 2 s

/-- Leftmost-first scan over positions; prev tracks the preceding
character for the opening word-boundary test. -/
def findCode : Option Char → JStr → JStr
  | _, [] => []
  | prev, c :: cs =>
    if (match prev with
        | none => true
        | some p => !(isWordChar p)) then
      match matchCodeHere (c :: cs) with
      | some code => code
      | none => findCode (some c) cs
    else findCode (some c) cs

/-- Model of extractClassCode (lib/sheets.js lines 222-228): first match
of the class-code regex anywhere in the string, or the empty string. -/
def extractClassCode (s : JStr) : JStr := findCode none s

-- ## parseClassroomData (lib/sheets.js lines 104-213)

/-- Text of the cell at column j: its value, stringified and trimmed, or
the empty string when the cell or its value is absent (line 150). -/
def getText (cells : List (Option Cell)) (j : Nat) : JStr :=
  match cells.get? j with
  | some (some cell) =>
    match cell.v with
    | some s => trim s
    | none => []
  | _ => []

/-- First truthy value of an optional number, else the fallback: model of
the JS expression a OR b where a is an optional number (0 is falsy). -/
def orNonzero : Option Int → Option Int → Option Int
  | some x, y => if x = 0 then y else some x
  | none, y => y

/-- The explicit span value a metadata object carries, if any key holds a
nonzero number: model of p.colSpan OR p.colspan OR p.span (line 156). -/
def metaSpanOpt (m : SpanMeta) : Option Int :=
  orNonzero m.colSpan (orNonzero m.colspan (orNonzero m.span none))

/-- The explicit span metadata carried by the cell at column j, if any. -/
def explicitSpanAt (cells : List (Option Cell)) (j : Nat) : Option Int :=
  match cells.get? j with
  | some (some cell) =>
    match cell.p with
    | some m => metaSpanOpt m
    | none => none
  | _ => none

/-- The span before the lab fallback: the explicit metadata value, else 1
(lines 153-160; the final Number(span) OR 1 step is the identity here
because the metadata chain only passes nonzero numbers through). -/
def rawSpan (cells : List (Option Cell)) (j : Nat) : Int :=
  (explicitSpanAt cells j).getD 1

/-- The default lookahead bound of the lab fallback (line 169; the
LAB_LOOKAHEAD environment variable is unset in the deployed default). -/
def MAX_LOOKAHEAD : Nat := 5

/-- The lookahead loop of the lab fallback (lines 170-182): count
consecutive empty cells after column j, stopping at the first non-empty
cell, at the end of the row, or after fuel cells. -/
def labExtra (cells : List (Option Cell)) (j : Nat) : Nat → Nat
  | 0 => 0
  | fuel + 1 =>
    if cells.length ≤ j + 1 then 0
    else if getText cells (j + 1) = [] then 1 + labExtra cells (j + 1) fuel
    else 0

/-- Unbounded count of consecutive empty cells after column j (a
specification-side quantity; the code never computes it directly). -/
def emptyRun (cells : List (Option Cell)) (j : Nat) : Nat :=
  if h : j + 1 < cells.length then
    if getText cells (j + 1) = [] then 1 + emptyRun cells (j + 1) else 0
  else 0
termination_by cells.length - j

/-- The effective span of the cell at column j: the raw span, extended by
the lab fallback when the raw span is 1 and the cell text matches the
whole-word lab regex (lines 162-184). -/
def effSpan (cells : List (Option Cell)) (j : Nat) : Int :=
  let sp := rawSpan cells j
  let txt := getText cells j
  if sp = 1 ∧ txt ≠ [] ∧ hasLabWord txt then
    1 + (labExtra cells j MAX_LOOKAHEAD : Int)
  else sp

/-- The schedule entries the cell at column j contributes: one entry per
spanned column that has a defined time slot (lines 186-203). -/
def cellEntries (ts : List TimeSlot) (cells : List (Option Cell)) (j : Nat) :
    List ScheduleEntry :=
  (List.range (effSpan cells j).toNat).filterMap fun s =>
    (ts.find? fun t => t.index = j + s).map fun slot =>
      ⟨j + s, slot.time, getText cells j, extractClassCode (getText cells j)⟩

/-- The optional entry the emit loop produces for spanned offset s of the
cell at column j: defined exactly when column j+s has a time slot. -/
def entryMk (ts : List TimeSlot) (cells : List (Option Cell)) (j s : Nat) :
    Option ScheduleEntry :=
  (ts.find? fun t => t.index = j + s).map fun slot =>
    ⟨j + s, slot.time, getText cells j, extractClassCode (getText cells j)⟩

/-- How far the column cursor advances after the cell at column j
(line 205 plus the loop increment). -/
def stepOf (cells : List (Option Cell)) (j : Nat) : Nat :=
  if 1 < effSpan cells j then (effSpan cells j).toNat else 1

/-- Fuel-indexed worker for the inner column loop of parseClassroomData;
the fuel only bounds the iteration count and is always supplied large
enough (the loop advances the column cursor by at least one per iteration
and stops at the end of the row). -/
def processCellsF (ts : List TimeSlot) (cells : List (Option Cell)) :
    Nat → Nat → List ScheduleEntry
  | _, 0 => []
  | j, fuel + 1 =>
    if j < cells.length then
      cellEntries ts cells j ++ processCellsF ts cells (j + stepOf cells j) fuel
    else []

/-- The inner column loop of parseClassroomData (lines 148-206), started
at column 1. -/
def processCells (ts : List TimeSlot) (cells : List (Option Cell)) (j : Nat) :
    List ScheduleEntry :=
  processCellsF ts cells j (cells.length + 1)

/-- The class-code set of a classroom: codes of the emitted entries,
deduplicated in insertion order, then sorted (lines 201-202, 208). -/
def classesOf (sched : List ScheduleEntry) : List JStr :=
  insSort jstrLe
    (sched.foldl (fun acc e => if e.code = [] then acc else addUnique e.code acc) [])

/-- The time-slot pass over header row 1 (lines 117-131): every column
beyond 0 whose cell holds a non-null value with non-empty trimmed text
becomes a time slot at that column index. -/
def buildTimeSlots (cells : List (Option Cell)) : List TimeSlot :=
  cells.enum.filterMap fun p =>
    if 0 < p.1 then
      match p.2 with
      | some cell =>
        match cell.v with
        | some v =>
          let raw := trim v
          if raw = [] then none else some ⟨p.1, raw, raw⟩
        | none => none
      | none => none
    else none

/-- Time slots of a grid: the header pass applied to row 1 when it has a
cell collection, else no slots. -/
def timeSlotsOfRows (rows : List Row) : List TimeSlot :=
  match rows.get? 1 with
  | some r =>
    match r.c with
    | some cells => buildTimeSlots cells
    | none => []
  | none => []

/-- The value of the first cell of a data row (row.c[0]?.v). -/
def rowNameVal (row : Row) : Option JStr :=
  match row.c with
  | some cells =>
    match cells.get? 0 with
    | some (some cell) => cell.v
    | _ => none
  | none => none

/-- One data row of parseClassroomData (lines 134-209): skipped when the
cell array is absent or empty or the first cell holds no truthy value;
otherwise a classroom named by the trimmed first cell, with the schedule
produced by the column loop. -/
def parseRow (ts : List TimeSlot) (row : Row) : Option Classroom :=
  match row.c with
  | none => none
  | some cells =>
    if cells.length = 0 then none
    else
      match rowNameVal row with
      | none => none
      | some s =>
        if s = [] then none
        else
          let sched := processCells ts cells 1
          some ⟨trim s, sched, classesOf sched⟩

/-- Model of parseClassroomData (lib/sheets.js lines 104-213). The JS
function never throws on the inputs this model ranges over; totality of
this definition mirrors that. -/
def parseClassroomData (g : GVizData) : ParseResult :=
  match g.table with
  | none => ⟨[], []⟩
  | some t =>
    match t.rows with
    | none => ⟨[], []⟩
    | some rows =>
      if rows.length < 3 then ⟨[], []⟩
      else
        let ts := timeSlotsOfRows rows
        ⟨(rows.drop 2).filterMap (parseRow ts), ts⟩

-- ## searchClasses (lib/sheets.js lines 236-332)

/-- One search result (the objects pushed onto results in searchClasses). -/
structure SearchResult where
  classroom : JStr
  «class» : JStr
  code : JStr
  time : JStr
  description : JStr
deriving DecidableEq

/-- The hit test of the first pass (lines 248-250): the lower-cased class
text, code or classroom name contains the search term. -/
def matchesTerm (term : JStr) (name : JStr) (s : ScheduleEntry) : Bool :=
  jstrIncludes (jstrToLower s.«class») term ||
  jstrIncludes (jstrToLower s.code) term ||
  jstrIncludes (jstrToLower name) term

/-- The grouping map of the first pass, in JS object insertion order. -/
abbrev GroupMap := List (JStr × List ScheduleEntry)

/-- resultsMap[key].push(slot), creating the key at the end of the
insertion order when absent (lines 252-256). -/
def addToMap (k : JStr) (v : ScheduleEntry) : GroupMap → GroupMap
  | [] => [(k, [v])]
  | (k2, vs) :: rest =>
    if k2 = k then (k2, vs ++ [v]) :: rest else (k2, vs) :: addToMap k v rest

/-- The schedule loop of the first pass for one classroom (lines 246-258). -/
def collectRow (term : JStr) (c : Classroom) :
    List ScheduleEntry → GroupMap → GroupMap
  | [], m => m
  | s :: rest, m =>
    collectRow term c rest
      (if matchesTerm term c.name s then
        addToMap (c.name ++ '|' :: s.«class») s m
      else m)

/-- The classroom loop of the first pass (lines 245-259). -/
def collectAll (term : JStr) : List Classroom → GroupMap → GroupMap
  | [], m => m
  | c :: rest, m => collectAll term rest (collectRow term c c.schedule m)

/-- The whole first pass: all matching slots grouped by the composite
classroomName-bar-classText key. -/
def collectHits (term : JStr) (cls : List Classroom) : GroupMap :=
  collectAll term cls []

/-- The per-group slot sort (line 270), by timeIndex ascending, stable. -/
def sortByIdx (slots : List ScheduleEntry) : List ScheduleEntry :=
  insSort (fun a b => decide (a.timeIndex ≤ b.timeIndex)) slots

/-- The inner while loop of the lab branch (lines 289-297): extend the
current run while the next slot's column is exactly one past the current
end, returning the run and the remaining slots. -/
def takeRun (e : ScheduleEntry) :
    List ScheduleEntry → List ScheduleEntry × List ScheduleEntry
  | [] => ([e], [])
  | x :: xs =>
    if x.timeIndex = e.timeIndex + 1 then
      (e :: (takeRun x xs).1, (takeRun x xs).2)
    else ([e], x :: xs)

/-- Fuel-indexed worker for the run decomposition; the fuel is always
supplied large enough (each run consumes at least one slot). -/
def labRunsOfF : List ScheduleEntry → Nat → List (List ScheduleEntry)
  | [], _ => []
  | _ :: _, 0 => []
  | s :: rest, fuel + 1 => (takeRun s rest).1 :: labRunsOfF (takeRun s rest).2 fuel

/-- The decomposition of a sorted slot list into the maximal
index-contiguous runs the outer while loop of the lab branch walks
(lines 285-323). -/
def labRunsOf (l : List ScheduleEntry) : List (List ScheduleEntry) :=
  labRunsOfF l l.length

/-- The merged time of one run (lines 300-312): the single slot's own time
for a one-slot run; otherwise start of the first slot's time joined by a
hyphen to the end of the last slot's time, each side split on the hyphen
and trimmed. Splitting the last time yields no second field exactly when
that time contains no hyphen, in which case the JS code throws
(undefined.trim()); that is the error case. -/
def runTime (r : List ScheduleEntry) : Except Unit JStr :=
  match r with
  | [] => .ok []
  | [s] => .ok s.time
  | s :: rest =>
    let e := (s :: rest).getLast (by simp)
    match (splitChar '-' e.time).get? 1 with
    | none => .error ()
    | some p2 =>
      .ok (trim ((splitChar '-' s.time).getD 0 []) ++ '-' :: trim p2)

/-- Specification-side total formula for the merged time of a run. -/
def runTimeStr (r : List ScheduleEntry) : JStr :=
  if r.length ≤ 1 then (r.headD default).time
  else
    trim ((splitChar '-' (r.headD default).time).getD 0 []) ++
      '-' :: trim ((splitChar '-' (r.getLastD default).time).getD 1 [])

/-- The description string of a result (lines 280, 319). -/
def descStr (name code time : JStr) : JStr :=
  code ++ ' ' :: '@' :: ' ' :: name ++ ' ' :: 'a' :: 't' :: ' ' :: time

/-- The result pushed for one slot of a non-lab group (lines 274-281). -/
def perSlotResult (name txt : JStr) (s : ScheduleEntry) : SearchResult :=
  ⟨name, txt, s.code, s.time, descStr name s.code s.time⟩

/-- The result pushed for one merged run of a lab group (lines 314-320). -/
def runResult (name txt : JStr) (r : List ScheduleEntry) (t : JStr) :
    SearchResult :=
  ⟨name, txt, (r.headD default).code, t, descStr name (r.headD default).code t⟩

/-- Emit the merged results of a lab group, run by run; a run whose merge
throws aborts the whole search (exception propagation). -/
def mergeRunList (name txt : JStr) :
    List (List ScheduleEntry) → Except Unit (List SearchResult)
  | [] => .ok []
  | r :: rs =>
    match runTime r with
    | .error e => .error e
    | .ok t =>
      match mergeRunList name txt rs with
      | .error e => .error e
      | .ok rest => .ok (runResult name txt r t :: rest)

/-- The second-pass body for one group (lines 263-325): sort the group's
slots by timeIndex, then emit one result per slot for non-lab class text,
or one result per maximal contiguous run for lab class text. -/
def processGroup (name txt : JStr) (slots : List ScheduleEntry) :
    Except Unit (List SearchResult) :=
  let sorted := sortByIdx slots
  if includesLab txt = false then
    .ok (sorted.map (perSlotResult name txt))
  else
    mergeRunList name txt (labRunsOf sorted)

/-- The Object.entries loop of the second pass, splitting each composite
key back into classroom name and class text (line 264); results of the
groups are concatenated in insertion order. -/
def processGroups : GroupMap → Except Unit (List SearchResult)
  | [] => .ok []
  | (k, ss) :: rest =>
    match processGroup ((splitChar '|' k).getD 0 []) ((splitChar '|' k).getD 1 []) ss with
    | .error e => .error e
    | .ok rs =>
      match processGroups rest with
      | .error e => .error e
      | .ok more => .ok (rs ++ more)

/-- The final comparator (lines 327-331): by code, ties by time, both as
code-point lexicographic order on the strings. -/
def resLe (a b : SearchResult) : Bool :=
  if a.code = b.code then jstrLe a.time b.time else jstrLe a.code b.code

/-- Model of searchClasses (lib/sheets.js lines 236-332). The error value
models the TypeError thrown when a merged lab run's last slot time
contains no hyphen. -/
def searchClasses (cls : List Classroom) (q : JStr) :
    Except Unit (List SearchResult) :=
  if q = [] ∨ trim q = [] then .ok []
  else
    let term := trim (jstrToLower q)
    match processGroups (collectHits term cls) with
    | .error e => .error e
    | .ok results => .ok (insSort resLe results)

-- ## findFreeRoomsForTimeRange (components/StudentTimetable.js lines 157-218)

/-- The HH:MM prefix match of the time regexes (StudentTimetable.js lines
68 and 173): one or two digits (greedy), a colon, exactly two digits. -/
def matchHHMM (s : JStr) : Option (Nat × Nat) :=
  match s with
  | c1 :: c2 :: c3 :: c4 :: c5 :: _ =>
    if isDigitCh c1 && isDigitCh c2 && decide (c3 = ':') &&
       isDigitCh c4 && isDigitCh c5 then
      some (digitVal c1 * 10 + digitVal c2, digitVal c4 * 10 + digitVal c5)
    else if isDigitCh c1 && decide (c2 = ':') && isDigitCh c3 && isDigitCh c4 then
      some (digitVal c1, digitVal c3 * 10 + digitVal c4)
    else none
  | [c1, c2, c3, c4] =>
    if isDigitCh c1 && decide (c2 = ':') && isDigitCh c3 && isDigitCh c4 then
      some (digitVal c1, digitVal c3 * 10 + digitVal c4)
    else none
  | _ => none

/-- The PM heuristic shared by both minute parsers: hours 1 through 7 are
shifted by 12. -/
def pmHour (h : Nat) : Nat := if 1 ≤ h ∧ h < 8 then h + 12 else h

/-- Model of the local toMinutes helper of findFreeRoomsForTimeRange
(StudentTimetable.js lines 171-179): none models the null returned for a
missing or unmatchable time string. -/
def toMinutes (t : JStr) : Option Nat :=
  if t = [] then none
  else
    match matchHHMM t with
    | none => none
    | some (h, m) => some (pmHour h * 60 + m)

/-- Model of parseTimeToMinutes (StudentTimetable.js lines 66-74), which
returns 0 instead of null on failure. -/
def parseTimeToMinutes (t : JStr) : Nat :=
  if t = [] then 0
  else
    match matchHHMM t with
    | none => 0
    | some (h, m) => pmHour h * 60 + m

/-- All-dashes test of the occupancy predicate (line 204). -/
def isAllDashes (s : JStr) : Bool :=
  match s with
  | [] => false
  | _ => s.all fun c => c = '-'

/-- The free-room record pushed by findFreeRoomsForTimeRange
(lines 208-213), with its hard-coded capacity and floor. -/
structure FreeRoom where
  name : JStr
  schedule : List ScheduleEntry
  capacity : Nat
  floor : JStr
deriving DecidableEq

/-- The record pushed for a free classroom. -/
def toFreeRoom (c : Classroom) : FreeRoom :=
  ⟨c.name, c.schedule, 50, ['1', 's', 't', ' ', 'F', 'l', 'o', 'o', 'r']⟩

/-- Does the slot's parsed start-minute lie in the half-open query range? -/
def slotInRange (a b : Nat) (slot : TimeSlot) : Bool :=
  match toMinutes slot.time with
  | some m => decide (a ≤ m) && decide (m < b)
  | none => false

/-- Is the classroom unoccupied at the given slot: no schedule entry at
the slot's index, or an entry whose trimmed text is empty or all dashes
(lines 200-205)? -/
def roomFreeAt (c : Classroom) (slot : TimeSlot) : Bool :=
  let cv := trim
    (match c.schedule.find? fun s => s.timeIndex = slot.index with
     | some e => e.«class»
     | none => [])
  cv = [] || isAllDashes cv

/-- Model of findFreeRoomsForTimeRange (StudentTimetable.js lines
157-218), from the point where the day's classrooms and timeSlots have
been extracted: guard on empty inputs, parse both bounds, then keep every
named classroom that has at least one slot in range and is free at all of
them. -/
def findFreeRoomsForTimeRange (classrooms : List Classroom)
    (timeSlots : List TimeSlot) (startTime endTime : JStr) : List FreeRoom :=
  if classrooms.length = 0 ∨ timeSlots.length = 0 then []
  else
    match toMinutes startTime, toMinutes endTime with
    | some startMin, some endMin =>
      classrooms.foldl
        (fun free c =>
          if c.name = [] then free
          else
            let overlapping := timeSlots.filter fun slot =>
              if slot.time = [] then false else slotInRange startMin endMin slot
            if overlapping.length = 0 then free
            else if overlapping.all fun slot => roomFreeAt c slot then
              free ++ [toFreeRoom c]
            else free)
        []
    | _, _ => []

-- ## The week-wide fetch (pages/api schedule handler, action=fetch,
-- day=all, lines 52-65, on top of getDaySchedule, lib/sheets.js 358-419)

/-- Day names of the DAYS table (lib/sheets.js lines 25-31). -/
def DAYS : Nat → JStr
  | 0 => ['M', 'o', 'n', 'd', 'a', 'y']
  | 1 => ['T', 'u', 'e', 's', 'd', 'a', 'y']
  | 2 => ['W', 'e', 'd', 'n', 'e', 's', 'd', 'a', 'y']
  | 3 => ['T', 'h', 'u', 'r', 's', 'd', 'a', 'y']
  | 4 => ['F', 'r', 'i', 'd', 'a', 'y']
  | _ => []

/-- A fetch oracle: the outcome (unwrapped GViz payload, or a failure
message) of the network fetch and JSON unwrap for each day index. This
abstracts fetchGVizData, whose network effects are outside the embedding. -/
abbrev Fetch := Nat → Except JStr GVizData

/-- The outcome record of getDaySchedule relevant to the week loop:
success flag, day name, and parsed data when successful. -/
structure DayOutcome where
  success : Bool
  day : JStr
  data : Option ParseResult
deriving DecidableEq

/-- Model of getDaySchedule (lib/sheets.js lines 358-419): day indices
outside 0..4 fail; a fetch failure is caught and reported as
success false; otherwise the fetched grid is parsed. -/
def getDayScheduleM (fetch : Fetch) (d : Nat) : DayOutcome :=
  if 4 < d then ⟨false, [], none⟩
  else
    match fetch d with
    | .error _ => ⟨false, [], none⟩
    | .ok g => ⟨true, DAYS d, some (parseClassroomData g)⟩

/-- The week loop of the handler (pages/api schedule, lines 59-63): each
day is fetched; only successful days are added to the week mapping, keyed
by day name. -/
def fetchWeek (fetch : Fetch) : List (JStr × ParseResult) :=
  (List.range 5).foldl
    (fun week d =>
      let r := getDayScheduleM fetch d
      if r.success then week ++ [(r.day, r.data.getD ⟨[], []⟩)] else week)
    []

/-- The week response of the handler (line 65): always success true, with
whichever days succeeded. -/
structure WeekResponse where
  success : Bool
  week : List (JStr × ParseResult)
deriving DecidableEq

/-- Model of the day=all branch of the fetch action (uncached path). -/
def handleFetchAll (fetch : Fetch) : WeekResponse :=
  ⟨true, fetchWeek fetch⟩


-- ## Auxiliary specification-side definitions

/-- The cell collection of header row 1, if present. -/
def row1Cells (rows : List Row) : Option (List (Option Cell)) :=
  match rows.get? 1 with
  | some r => r.c
  | none => none

/-- Number of schedule entries at a given time index. -/
def countAt (c : Nat) (l : List ScheduleEntry) : Nat :=
  (l.filter fun e => e.timeIndex = c).length

/-- Are the entries of a run index-contiguous (each next index is one
past the previous)? -/
def chainSuccB : List ScheduleEntry → Bool
  | x :: y :: rest => decide (y.timeIndex = x.timeIndex + 1) && chainSuccB (y :: rest)
  | _ => true

/-- Are adjacent runs separated by a genuine break (the head of the next
run is not one past the last entry of the previous run)? -/
def runsBoundariesOk : List (List ScheduleEntry) → Bool
  | r1 :: r2 :: rest =>
    !(decide ((r2.headD default).timeIndex = (r1.getLastD default).timeIndex + 1)) &&
      runsBoundariesOk (r2 :: rest)
  | _ => true

-- ## Concrete inputs used in counterexamples and witnesses

/-- Header row carrying two time slots at columns 1 and 2. -/
def hdrRow2 : Row :=
  ⟨some [none,
         some ⟨some ['8', ':', '0', '0', '-', '8', ':', '5', '0'], none⟩,
         some ⟨some ['8', ':', '5', '0', '-', '9', ':', '4', '0'], none⟩]⟩

/-- Grid whose data row holds a lab cell followed by one empty cell, with
no span metadata anywhere. -/
def gW : GVizData :=
  ⟨some ⟨some
    [⟨some []⟩, hdrRow2,
     ⟨some [some ⟨some ['R', '1'], none⟩,
            some ⟨some ['F', 'E', ' ', 'L', 'a', 'b'], none⟩,
            some ⟨none, none⟩]⟩]⟩⟩

/-- Data-row cells whose lab cell at column 1 carries explicit span
metadata 1 (colSpan equal to 1) and is followed by one empty cell. -/
def cellsC1 : List (Option Cell) :=
  [some ⟨some ['R', '1'], none⟩,
   some ⟨some ['F', 'E', ' ', 'L', 'a', 'b'], some ⟨some 1, none, none⟩⟩,
   some ⟨none, none⟩]

/-- Grid whose data row is cellsC1. -/
def gC1 : GVizData :=
  ⟨some ⟨some [⟨some []⟩, hdrRow2, ⟨some cellsC1⟩]⟩⟩

/-- Data-row cells with no span metadata: an empty cell at column 1
(under a defined time slot) and a non-empty cell at column 2. -/
def cellsC3 : List (Option Cell) :=
  [some ⟨some ['R', '1'], none⟩,
   some ⟨none, none⟩,
   some ⟨some ['B', 'C', 'S', '-', '1', 'G'], none⟩]

/-- Grid with no span metadata whose data row is cellsC3. -/
def gC3 : GVizData :=
  ⟨some ⟨some [⟨some []⟩, hdrRow2, ⟨some cellsC3⟩]⟩⟩

/-- The classroom parseRow produces from cellsC2 under the ts3 slots. -/
def clC3w : Classroom :=
  ⟨['R', '1'],
   [⟨1, ['8', ':', '0', '0', '-', '8', ':', '5', '0'], ['F', 'E', ' ', 'L', 'a', 'b'], []⟩,
    ⟨2, ['8', ':', '5', '0', '-', '9', ':', '4', '0'], ['F', 'E', ' ', 'L', 'a', 'b'], []⟩,
    ⟨3, ['9', ':', '4', '0', '-', '1', '0', ':', '3', '0'], ['F', 'E', ' ', 'L', 'a', 'b'], []⟩],
   []⟩

/-- Grid with three rows whose row 1 lacks a cell collection but whose
data row carries a room name. -/
def gC7 : GVizData :=
  ⟨some ⟨some [⟨some []⟩, ⟨none⟩, ⟨some [some ⟨some ['R', '1'], none⟩]⟩]⟩⟩

/-- Grid of the C9 counterexample: the data row's first cell holds a
single space, which is truthy in JS, so the row is not skipped, but its
trimmed name is empty. -/
def gC9 : GVizData :=
  ⟨some ⟨some [⟨some []⟩, ⟨some []⟩, ⟨some [some ⟨some [' '], none⟩]⟩]⟩⟩

/-- A classroom whose class text contains the substring lab only inside a
larger word, occupying two contiguous slots. -/
def roomSyl : Classroom :=
  ⟨['R', '1'],
   [⟨1, ['8', ':', '0', '0', '-', '8', ':', '5', '0'], ['S', 'y', 'l', 'l', 'a', 'b', 'u', 's'], []⟩,
    ⟨2, ['8', ':', '5', '0', '-', '9', ':', '4', '0'], ['S', 'y', 'l', 'l', 'a', 'b', 'u', 's'], []⟩],
   []⟩

/-- Three contiguous lab slots, as a slot group for the search engine. -/
def labSlots3 : List ScheduleEntry :=
  [⟨1, ['8', ':', '0', '0', '-', '8', ':', '5', '0'], ['F', 'E', ' ', 'L', 'a', 'b'], []⟩,
   ⟨2, ['8', ':', '5', '0', '-', '9', ':', '4', '0'], ['F', 'E', ' ', 'L', 'a', 'b'], []⟩,
   ⟨3, ['9', ':', '4', '0', '-', '1', '0', ':', '3', '0'], ['F', 'E', ' ', 'L', 'a', 'b'], []⟩]

/-- One time slot starting at 8:00, for the free-room examples. -/
def tsFree : List TimeSlot :=
  [⟨1, ['8', ':', '0', '0', '-', '8', ':', '5', '0'], ['8', ':', '0', '0', '-', '8', ':', '5', '0']⟩]

/-- A classroom with an empty schedule (free at every slot). -/
def roomFree : Classroom := ⟨['R', '1'], [], []⟩

/-- A fetch oracle for the week examples: day 2 fails, other days return
the gW grid. -/
def fetchW : Fetch := fun d => if d = 2 then .error ['x'] else .ok gW

/-- Data-row cells with a metadata-free lab cell at column 1 followed by
two empty cells and a non-empty cell. -/
def cellsC2 : List (Option Cell) :=
  [some ⟨some ['R', '1'], none⟩,
   some ⟨some ['F', 'E', ' ', 'L', 'a', 'b'], none⟩,
   some ⟨none, none⟩,
   some ⟨none, none⟩,
   some ⟨some ['X'], none⟩]

/-- Three time slots at columns 1, 2 and 3. -/
def ts3 : List TimeSlot :=
  [⟨1, ['8', ':', '0', '0', '-', '8', ':', '5', '0'], ['8', ':', '0', '0', '-', '8', ':', '5', '0']⟩,
   ⟨2, ['8', ':', '5', '0', '-', '9', ':', '4', '0'], ['8', ':', '5', '0', '-', '9', ':', '4', '0']⟩,
   ⟨3, ['9', ':', '4', '0', '-', '1', '0', ':', '3', '0'], ['9', ':', '4', '0', '-', '1', '0', ':', '3', '0']⟩]

/-- Data-row cells whose column-1 cell carries explicit span metadata 3. -/
def cellsC1w : List (Option Cell) :=
  [some ⟨some ['R', '1'], none⟩,
   some ⟨some ['B', 'C', 'S', '-', '1', 'G', ' ', 'D', 'B'], some ⟨some 3, none, none⟩⟩,
   some ⟨none, none⟩,
   some ⟨none, none⟩]

/-- Specification-side per-room predicate of findFreeRoomsForTimeRange:
the room is named, at least one slot's start-minute lies in the range,
and the room is unoccupied at every such slot. -/
def freePred (ts : List TimeSlot) (a b : Nat) (c : Classroom) : Bool :=
  !decide (c.name = []) &&
  !decide ((ts.filter (slotInRange a b)).length = 0) &&
  (ts.filter (slotInRange a b)).all fun slot => roomFreeAt c slot

/-- Invariant of the first search pass: every group of the map is
non-empty, and each of its slots comes from some classroom of the input,
matched the search term, and determined the group's composite key. -/
def goodMap (term : JStr) (cls : List Classroom) (m : GroupMap) : Prop :=
  ∀ p ∈ m, p.2 ≠ [] ∧ ∀ s ∈ p.2, ∃ c ∈ cls,
    p.1 = c.name ++ '|' :: s.«class» ∧ s ∈ c.schedule ∧
    matchesTerm term c.name s = true

/-- The single merged result searchClasses produces for roomSyl under the
query syl. -/
def rC10 : SearchResult :=
  ⟨['R', '1'], ['S', 'y', 'l', 'l', 'a', 'b', 'u', 's'], [],
   ['8', ':', '0', '0', '-', '9', ':', '4', '0'],
   descStr ['R', '1'] [] ['8', ':', '0', '0', '-', '9', ':', '4', '0']⟩

-- ## General lemmas about the embedded definitions

theorem stepOf_pos (cells : List (Option Cell)) (j : Nat) : 1 ≤ stepOf cells j := by
  unfold stepOf
  split
  · omega
  · exact Nat.le_refl 1

theorem takeRun_snd_le (e : ScheduleEntry) (l : List ScheduleEntry) :
    (takeRun e l).2.length ≤ l.length := by
  induction l generalizing e with
  | nil => exact Nat.le_refl 0
  | cons x xs ih =>
    unfold takeRun
    by_cases hx : x.timeIndex = e.timeIndex + 1
    · rw [if_pos hx]
      exact Nat.le_trans (ih x) (Nat.le_succ _)
    · rw [if_neg hx]

theorem processCellsF_congr (ts : List TimeSlot) (cells : List (Option Cell)) :
    ∀ f1 f2 j, cells.length - j < f1 → cells.length - j < f2 →
      processCellsF ts cells j f1 = processCellsF ts cells j f2 := by
  intro f1
  induction f1 with
  | zero => intro f2 j h1 _; omega
  | succ f1 ih =>
    intro f2 j h1 h2
    cases f2 with
    | zero => omega
    | succ f2 =>
      show (if j < cells.length then
              cellEntries ts cells j ++ processCellsF ts cells (j + stepOf cells j) f1
            else []) =
           (if j < cells.length then
              cellEntries ts cells j ++ processCellsF ts cells (j + stepOf cells j) f2
            else [])
      by_cases hj : j < cells.length
      · rw [if_pos hj, if_pos hj]
        have hs := stepOf_pos cells j
        rw [ih f2 (j + stepOf cells j) (by omega) (by omega)]
      · rw [if_neg hj, if_neg hj]

/-- The defining recursion of processCells: process the cell at the
cursor, then continue past its span. -/
theorem processCells_eq (ts : List TimeSlot) (cells : List (Option Cell)) (j : Nat) :
    processCells ts cells j =
      if j < cells.length then
        cellEntries ts cells j ++ processCells ts cells (j + stepOf cells j)
      else [] := by
  show (if j < cells.length then
          cellEntries ts cells j ++ processCellsF ts cells (j + stepOf cells j) cells.length
        else []) = _
  by_cases hj : j < cells.length
  · rw [if_pos hj, if_pos hj]
    have hs := stepOf_pos cells j
    unfold processCells
    rw [processCellsF_congr ts cells cells.length (cells.length + 1)
      (j + stepOf cells j) (by omega) (by omega)]
  · rw [if_neg hj, if_neg hj]

theorem labRunsOfF_congr :
    ∀ f1 f2 (l : List ScheduleEntry), l.length ≤ f1 → l.length ≤ f2 →
      labRunsOfF l f1 = labRunsOfF l f2 := by
  intro f1
  induction f1 with
  | zero =>
    intro f2 l h1 _
    have : l = [] := List.length_eq_zero.mp (Nat.le_zero.mp h1)
    subst this
    cases f2 <;> rfl
  | succ f1 ih =>
    intro f2 l h1 h2
    cases l with
    | nil => cases f2 <;> rfl
    | cons s rest =>
      cases f2 with
      | zero => simp at h2
      | succ f2 =>
        show (takeRun s rest).1 :: labRunsOfF (takeRun s rest).2 f1 =
             (takeRun s rest).1 :: labRunsOfF (takeRun s rest).2 f2
        have hle := takeRun_snd_le s rest
        simp only [List.length_cons] at h1 h2
        rw [ih f2 (takeRun s rest).2 (by omega) (by omega)]

/-- The defining recursion of labRunsOf. -/
theorem labRunsOf_cons (s : ScheduleEntry) (rest : List ScheduleEntry) :
    labRunsOf (s :: rest) =
      (takeRun s rest).1 :: labRunsOf (takeRun s rest).2 := by
  show (takeRun s rest).1 :: labRunsOfF (takeRun s rest).2 rest.length = _
  have hle := takeRun_snd_le s rest
  unfold labRunsOf
  rw [labRunsOfF_congr rest.length (takeRun s rest).2.length (takeRun s rest).2
    (by omega) (Nat.le_refl _)]


theorem hasLabWord_ne_nil {s : JStr} (h : hasLabWord s = true) : s ≠ [] := by
  intro he
  subst he
  simp [hasLabWord, hasLabWordAux] at h

theorem timeSlotsOfRows_of_row1_none {rows : List Row} (h : row1Cells rows = none) :
    timeSlotsOfRows rows = [] := by
  unfold timeSlotsOfRows
  unfold row1Cells at h
  cases hr : rows.get? 1 with
  | none => simp only [hr]
  | some r =>
    simp only [hr] at h ⊢
    cases hc : r.c with
    | none => simp only [hc]
    | some cells => simp [hc] at h

theorem cellEntries_nil_ts (cells : List (Option Cell)) (j : Nat) :
    cellEntries [] cells j = [] := by
  unfold cellEntries
  induction List.range (effSpan cells j).toNat with
  | nil => rfl
  | cons s l ih =>
    rw [List.filterMap_cons]
    simp only [List.find?_nil, Option.map_none']
    exact ih

theorem processCells_nil_aux (cells : List (Option Cell)) :
    ∀ fuel j, cells.length - j ≤ fuel → processCells [] cells j = [] := by
  intro fuel
  induction fuel with
  | zero =>
    intro j hj
    rw [processCells_eq, if_neg (by omega)]
  | succ fuel ih =>
    intro j hj
    rw [processCells_eq]
    by_cases h : j < cells.length
    · rw [if_pos h, cellEntries_nil_ts, List.nil_append]
      apply ih
      have := stepOf_pos cells j
      omega
    · rw [if_neg h]

theorem processCells_nil_ts (cells : List (Option Cell)) (j : Nat) :
    processCells [] cells j = [] :=
  processCells_nil_aux cells (cells.length - j) j (Nat.le_refl _)

-- ## Claim C6

/-- C6 (confirmed): minute parsing extracts an HH:MM prefix; every parsed
hour h with 1 <= h < 8 is normalized by adding 12 (the PM heuristic), in
both the local toMinutes helper of findFreeRoomsForTimeRange and in
parseTimeToMinutes; parsing 1:30 yields 13*60+30 = 810 minutes and
parsing 8:00 yields 8*60 = 480 minutes (hour 8 excluded from the PM
range). -/
theorem c6_pm_heuristic (s : JStr) (h m : Nat)
    (hm : matchHHMM s = some (h, m)) (h1 : 1 ≤ h) (h8 : h < 8) :
    toMinutes s = some ((h + 12) * 60 + m) ∧
    parseTimeToMinutes s = (h + 12) * 60 + m ∧
    toMinutes ['1', ':', '3', '0'] = some 810 ∧
    toMinutes ['8', ':', '0', '0'] = some 480 := by
  have hs : ¬(s = []) := by
    intro he
    subst he
    simp [matchHHMM] at hm
  refine ⟨?_, ?_, by decide, by decide⟩
  · unfold toMinutes
    rw [if_neg hs, hm]
    show some (pmHour h * 60 + m) = some ((h + 12) * 60 + m)
    unfold pmHour
    rw [if_pos ⟨h1, h8⟩]
  · unfold parseTimeToMinutes
    rw [if_neg hs, hm]
    show pmHour h * 60 + m = (h + 12) * 60 + m
    unfold pmHour
    rw [if_pos ⟨h1, h8⟩]

/-- Witness for c6_pm_heuristic at the concrete input 1:30. -/
theorem c6_pm_heuristic_witness :
    toMinutes ['1', ':', '3', '0'] = some ((1 + 12) * 60 + 30) ∧
    parseTimeToMinutes ['1', ':', '3', '0'] = (1 + 12) * 60 + 30 ∧
    toMinutes ['1', ':', '3', '0'] = some 810 ∧
    toMinutes ['8', ':', '0', '0'] = some 480 :=
  c6_pm_heuristic ['1', ':', '3', '0'] 1 30 (by decide) (by decide) (by decide)

-- ## Claim C9

/-- C9 counterexample: the parser output for gC9 contains a classroom
whose (trimmed) name is empty, contradicting the claim that every
Classroom in the parser's output has a non-empty trimmed name. The
first-cell check of parseClassroomData (line 139) tests truthiness before
trimming, so a whitespace-only room cell passes it. -/
theorem c9_counterexample :
    (parseClassroomData gC9).classrooms.map Classroom.name = [[]] := by decide

/-- C9 (corrected): every Classroom in the parser's output comes from a
specific data row of the grid whose first cell holds a non-null,
non-empty (untrimmed) string s, and the Classroom's stored name is
exactly that string trimmed - which may still be empty when the cell was
whitespace-only; a data row whose first cell is absent, null or the
empty string produces no Classroom at all. -/
theorem c9_name_amended :
    (∀ g cl, cl ∈ (parseClassroomData g).classrooms →
      ∃ t rows row s, g.table = some t ∧ t.rows = some rows ∧
        row ∈ rows.drop 2 ∧ rowNameVal row = some s ∧ s ≠ [] ∧
        cl.name = trim s ∧ parseRow (timeSlotsOfRows rows) row = some cl) ∧
    (∀ ts row, (rowNameVal row = none ∨ rowNameVal row = some []) →
      parseRow ts row = none) := by
  constructor
  · intro g cl hcl
    obtain ⟨tb⟩ := g
    cases tb with
    | none => simp [parseClassroomData] at hcl
    | some t =>
      obtain ⟨rws⟩ := t
      cases rws with
      | none => simp [parseClassroomData] at hcl
      | some rows =>
        simp only [parseClassroomData] at hcl
        by_cases hlen : rows.length < 3
        · rw [if_pos hlen] at hcl
          simp at hcl
        · rw [if_neg hlen] at hcl
          simp only [List.mem_filterMap] at hcl
          obtain ⟨row, hmem, hrow⟩ := hcl
          have hrow2 := hrow
          simp only [parseRow] at hrow2
          cases hc : row.c with
          | none =>
            simp only [hc] at hrow2
            simp at hrow2
          | some cells =>
            simp only [hc] at hrow2
            by_cases h0 : cells.length = 0
            · rw [if_pos h0] at hrow2
              simp at hrow2
            · rw [if_neg h0] at hrow2
              cases hv : rowNameVal row with
              | none =>
                simp only [hv] at hrow2
                simp at hrow2
              | some s =>
                simp only [hv] at hrow2
                by_cases hse : s = []
                · rw [if_pos hse] at hrow2
                  simp at hrow2
                · rw [if_neg hse] at hrow2
                  have h2 := Option.some.inj hrow2
                  refine ⟨⟨some rows⟩, rows, row, s, rfl, rfl, hmem, hv, hse,
                    ?_, hrow⟩
                  rw [← h2]
  · intro ts row hv
    obtain ⟨rc⟩ := row
    cases rc with
    | none => rfl
    | some cells =>
      simp only [parseRow]
      by_cases h0 : cells.length = 0
      · rw [if_pos h0]
      · rw [if_neg h0]
        rcases hv with hv | hv
        · simp only [hv]
        · simp only [hv]
          simp

/-- Witness for c9_name_amended: the classroom parsed from gW, tied to
its data row and first-cell string. -/
theorem c9_name_amended_witness :
    ∃ t rows row s, gW.table = some t ∧ t.rows = some rows ∧
      row ∈ rows.drop 2 ∧ rowNameVal row = some s ∧ s ≠ [] ∧
      (Classroom.mk ['R', '1']
        [⟨1, ['8', ':', '0', '0', '-', '8', ':', '5', '0'], ['F', 'E', ' ', 'L', 'a', 'b'], []⟩,
         ⟨2, ['8', ':', '5', '0', '-', '9', ':', '4', '0'], ['F', 'E', ' ', 'L', 'a', 'b'], []⟩]
        []).name = trim s ∧
      parseRow (timeSlotsOfRows rows) row =
        some (Classroom.mk ['R', '1']
          [⟨1, ['8', ':', '0', '0', '-', '8', ':', '5', '0'], ['F', 'E', ' ', 'L', 'a', 'b'], []⟩,
           ⟨2, ['8', ':', '5', '0', '-', '9', ':', '4', '0'], ['F', 'E', ' ', 'L', 'a', 'b'], []⟩]
          []) :=
  c9_name_amended.1 gW _ (by decide)

-- ## Claim C7

/-- C7 counterexample: gC7 has three rows but its row 1 lacks a cell
collection; the parser does not return the empty result the claim
demands - the named data row still produces a Classroom (with an empty
schedule), so classrooms is non-empty. -/
theorem c7_counterexample :
    parseClassroomData gC7 = ⟨[⟨['R', '1'], [], []⟩], []⟩ ∧
    (parseClassroomData gC7).classrooms ≠ [] :=
  ⟨by decide, by decide⟩

/-- C7 (corrected): a grid with no table, no rows, or fewer than 3 rows
parses to exactly the empty result (and, the model being total, without
throwing); a grid of at least 3 rows whose row 1 lacks a cell collection
yields empty timeSlots and classrooms whose schedules are all empty, but
rooms named in data rows still appear as (schedule-less) classrooms. -/
theorem c7_degenerate_amended :
    (∀ g, g.table = none → parseClassroomData g = ⟨[], []⟩) ∧
    (∀ g t, g.table = some t → t.rows = none → parseClassroomData g = ⟨[], []⟩) ∧
    (∀ g t rows, g.table = some t → t.rows = some rows → rows.length < 3 →
      parseClassroomData g = ⟨[], []⟩) ∧
    (∀ g t rows, g.table = some t → t.rows = some rows → 3 ≤ rows.length →
      row1Cells rows = none →
      (parseClassroomData g).timeSlots = [] ∧
      ∀ cl ∈ (parseClassroomData g).classrooms, cl.schedule = []) := by
  refine ⟨?_, ?_, ?_, ?_⟩
  · intro g h
    obtain ⟨tb⟩ := g
    have h2 : tb = none := h
    subst h2
    rfl
  · intro g t h1 h2
    obtain ⟨tb⟩ := g
    have h1a : tb = some t := h1
    subst h1a
    obtain ⟨rws⟩ := t
    have h2a : rws = none := h2
    subst h2a
    rfl
  · intro g t rows h1 h2 h3
    obtain ⟨tb⟩ := g
    have h1a : tb = some t := h1
    subst h1a
    obtain ⟨rws⟩ := t
    have h2a : rws = some rows := h2
    subst h2a
    simp only [parseClassroomData]
    rw [if_pos h3]
  · intro g t rows h1 h2 h3 h4
    obtain ⟨tb⟩ := g
    have h1a : tb = some t := h1
    subst h1a
    obtain ⟨rws⟩ := t
    have h2a : rws = some rows := h2
    subst h2a
    have hts := timeSlotsOfRows_of_row1_none h4
    simp only [parseClassroomData]
    rw [if_neg (by omega)]
    constructor
    · exact hts
    · intro cl hcl
      show cl.schedule = []
      rw [hts] at hcl
      simp only [List.mem_filterMap] at hcl
      obtain ⟨row, _, hrow⟩ := hcl
      obtain ⟨rc⟩ := row
      cases rc with
      | none => simp [parseRow] at hrow
      | some cells =>
        simp only [parseRow] at hrow
        by_cases h0 : cells.length = 0
        · rw [if_pos h0] at hrow
          simp at hrow
        · rw [if_neg h0] at hrow
          cases hv : rowNameVal ⟨some cells⟩ with
          | none =>
            simp only [hv] at hrow
            simp at hrow
          | some s =>
            simp only [hv] at hrow
            by_cases hse : s = []
            · rw [if_pos hse] at hrow
              simp at hrow
            · rw [if_neg hse] at hrow
              have h2b := Option.some.inj hrow
              rw [← h2b]
              exact processCells_nil_ts cells 1

/-- Witness for c7_degenerate_amended at gC7 (row 1 has no cells). -/
theorem c7_degenerate_amended_witness :
    (parseClassroomData gC7).timeSlots = [] ∧
    ∀ cl ∈ (parseClassroomData gC7).classrooms, cl.schedule = [] :=
  c7_degenerate_amended.2.2.2 gC7 _ _ rfl rfl (by decide) (by decide)

-- ## Claim C2

theorem labExtra_eq_min (cells : List (Option Cell)) :
    ∀ fuel j, labExtra cells j fuel = min fuel (emptyRun cells j) := by
  intro fuel
  induction fuel with
  | zero => intro j; simp [labExtra]
  | succ fuel ih =>
    intro j
    show (if cells.length ≤ j + 1 then 0
          else if getText cells (j + 1) = [] then 1 + labExtra cells (j + 1) fuel
          else 0) = min (fuel + 1) (emptyRun cells j)
    rw [emptyRun]
    by_cases hb : j + 1 < cells.length
    · rw [dif_pos hb, if_neg (by omega)]
      by_cases he : getText cells (j + 1) = []
      · rw [if_pos he, if_pos he, ih (j + 1)]
        omega
      · rw [if_neg he, if_neg he]
        omega
    · rw [dif_neg hb, if_pos (by omega)]
      omega

/-- C2 (confirmed): for a cell with no span metadata, the effective span
is 1 plus the number of consecutive empty cells immediately following it,
capped by the lookahead bound MAX_LOOKAHEAD = 5 and stopping at the first
non-empty cell, when the cell's text matches the whole-word lab test; a
metadata-free cell whose text does not match the lab test always gets
span 1, regardless of how many empty cells follow it. -/
theorem c2_lab_fallback (cells : List (Option Cell)) (j : Nat)
    (hm : explicitSpanAt cells j = none) :
    effSpan cells j =
      if hasLabWord (getText cells j) then
        1 + (min MAX_LOOKAHEAD (emptyRun cells j) : Int)
      else 1 := by
  unfold effSpan rawSpan
  rw [hm]
  show (if (Option.getD none 1 : Int) = 1 ∧ getText cells j ≠ [] ∧
           hasLabWord (getText cells j) then
          1 + (labExtra cells j MAX_LOOKAHEAD : Int)
        else Option.getD none 1) = _
  by_cases hl : hasLabWord (getText cells j)
  · have hne := hasLabWord_ne_nil hl
    rw [if_pos ⟨rfl, hne, hl⟩, if_pos hl, labExtra_eq_min]
    omega
  · rw [if_neg (fun hcon => hl hcon.2.2), if_neg hl]
    rfl

/-- Witness for c2_lab_fallback: a lab cell at column 1 of cellsC2,
followed by two empty cells and a non-empty one. -/
theorem c2_lab_fallback_witness :
    effSpan cellsC2 1 =
      if hasLabWord (getText cellsC2 1) then
        1 + (min MAX_LOOKAHEAD (emptyRun cellsC2 1) : Int)
      else 1 :=
  c2_lab_fallback cellsC2 1 (by decide)

-- ## Claim C1

theorem filterMap_entryMk_props (ts : List TimeSlot) (cells : List (Option Cell))
    (j : Nat) :
    ∀ l : List Nat,
      (∀ s ∈ l, (ts.find? fun t => t.index = j + s).isSome = true) →
      (l.filterMap (entryMk ts cells j)).map (fun e => e.timeIndex) = l.map (j + ·) ∧
      (l.filterMap (entryMk ts cells j)).length = l.length ∧
      ∀ e ∈ l.filterMap (entryMk ts cells j),
        e.«class» = getText cells j ∧ e.code = extractClassCode (getText cells j) := by
  intro l
  induction l with
  | nil => intro _; exact ⟨rfl, rfl, by intro e he; simp at he⟩
  | cons s l ih =>
    intro h
    have hs := h s (List.mem_cons_self s l)
    obtain ⟨slot, hslot⟩ := Option.isSome_iff_exists.mp hs
    have hmk : entryMk ts cells j s =
        some ⟨j + s, slot.time, getText cells j, extractClassCode (getText cells j)⟩ := by
      unfold entryMk
      rw [hslot]
      rfl
    have ihh := ih fun x hx => h x (List.mem_cons_of_mem _ hx)
    simp only [List.filterMap_cons, hmk]
    refine ⟨?_, ?_, ?_⟩
    · simp only [List.map_cons]
      rw [ihh.1]
    · simp only [List.length_cons]
      rw [ihh.2.1]
    · intro e he
      rcases List.mem_cons.mp he with he | he
      · subst he
        exact ⟨rfl, rfl⟩
      · exact ihh.2.2 e he

/-- C1 counterexample: the lab cell at column 1 of cellsC1 carries
explicit span metadata 1 (so the claim demands exactly one entry for it),
yet parsing gC1 emits two entries for that cell - the lab fallback is
keyed on the computed span being 1, not on the absence of metadata, so it
still fires for an explicit span of 1. -/
theorem c1_counterexample :
    explicitSpanAt cellsC1 1 = some 1 ∧
    (parseClassroomData gC1).classrooms.map (fun c => c.schedule) =
      [[⟨1, ['8', ':', '0', '0', '-', '8', ':', '5', '0'], ['F', 'E', ' ', 'L', 'a', 'b'], []⟩,
        ⟨2, ['8', ':', '5', '0', '-', '9', ':', '4', '0'], ['F', 'E', ' ', 'L', 'a', 'b'], []⟩]] :=
  ⟨by decide, by decide⟩

/-- C1 (corrected): for a data-row cell carrying explicit span metadata n
with n greater than 1, and whose n spanned columns all have defined time
slots, the parser emits exactly n ScheduleEntry values for that cell, at
consecutive timeIndex values starting at the cell's column, all sharing
the cell's own classText and code, and the n-1 following columns are
never re-processed as independent cells (the column loop resumes at
column j+n). A cell whose explicit metadata value is 1 behaves like a
metadata-free cell and the lab fallback may still extend its span. -/
theorem c1_explicit_span_amended (ts : List TimeSlot) (cells : List (Option Cell))
    (j : Nat) (n : Int) (hj : j < cells.length)
    (hm : explicitSpanAt cells j = some n) (hn : 1 < n)
    (hts : ∀ s, s < n.toNat → (ts.find? fun t => t.index = j + s).isSome = true) :
    (cellEntries ts cells j).map (fun e => e.timeIndex) =
      (List.range n.toNat).map (j + ·) ∧
    (cellEntries ts cells j).length = n.toNat ∧
    (∀ e ∈ cellEntries ts cells j,
      e.«class» = getText cells j ∧ e.code = extractClassCode (getText cells j)) ∧
    processCells ts cells j =
      cellEntries ts cells j ++ processCells ts cells (j + n.toNat) := by
  have heff : effSpan cells j = n := by
    unfold effSpan rawSpan
    rw [hm]
    rw [if_neg fun hcon => by
      have h1 : (some n).getD 1 = n := rfl
      rw [h1] at hcon
      omega]
    rfl
  have hstep : stepOf cells j = n.toNat := by
    unfold stepOf
    rw [heff, if_pos hn]
  have hce : cellEntries ts cells j =
      (List.range n.toNat).filterMap (entryMk ts cells j) := by
    unfold cellEntries entryMk
    rw [heff]
  have hprops := filterMap_entryMk_props ts cells j (List.range n.toNat)
    fun s hs => hts s (List.mem_range.mp hs)
  refine ⟨?_, ?_, ?_, ?_⟩
  · rw [hce]
    exact hprops.1
  · rw [hce, hprops.2.1, List.length_range]
  · rw [hce]
    exact hprops.2.2
  · rw [processCells_eq, if_pos hj, hstep]

/-- Witness for c1_explicit_span_amended: explicit span 3 over three
defined slots. -/
theorem c1_explicit_span_amended_witness :
    (cellEntries ts3 cellsC1w 1).map (fun e => e.timeIndex) =
      (List.range (3 : Int).toNat).map (1 + ·) ∧
    (cellEntries ts3 cellsC1w 1).length = (3 : Int).toNat ∧
    (∀ e ∈ cellEntries ts3 cellsC1w 1,
      e.«class» = getText cellsC1w 1 ∧ e.code = extractClassCode (getText cellsC1w 1)) ∧
    processCells ts3 cellsC1w 1 =
      cellEntries ts3 cellsC1w 1 ++ processCells ts3 cellsC1w (1 + (3 : Int).toNat) :=
  c1_explicit_span_amended ts3 cellsC1w 1 3 (by decide) (by decide) (by decide)
    (by decide)

-- ## Claim C8

theorem getDayScheduleM_ok (fetch : Fetch) (d : Nat) (hd : d < 5) (g : GVizData)
    (hg : fetch d = .ok g) :
    getDayScheduleM fetch d = ⟨true, DAYS d, some (parseClassroomData g)⟩ := by
  unfold getDayScheduleM
  rw [if_neg (by omega), hg]

theorem getDayScheduleM_err (fetch : Fetch) (d : Nat) (hd : d < 5) (e : JStr)
    (he : fetch d = .error e) :
    getDayScheduleM fetch d = ⟨false, [], none⟩ := by
  unfold getDayScheduleM
  rw [if_neg (by omega), he]

theorem foldl_week_filterMap (fetch : Fetch) :
    ∀ (l : List Nat) (acc : List (JStr × ParseResult)),
      l.foldl
        (fun week d =>
          let r := getDayScheduleM fetch d
          if r.success then week ++ [(r.day, r.data.getD ⟨[], []⟩)] else week)
        acc
      = acc ++ l.filterMap fun d =>
          let r := getDayScheduleM fetch d
          if r.success then some (r.day, r.data.getD ⟨[], []⟩) else none := by
  intro l
  induction l with
  | nil => intro acc; simp
  | cons d l ih =>
    intro acc
    simp only [List.foldl_cons, List.filterMap_cons]
    cases hd : (getDayScheduleM fetch d).success with
    | true =>
      simp only [hd, if_true]
      rw [ih]
      simp
    | false =>
      simp only [hd, Bool.false_eq_true, if_false]
      rw [ih]

theorem fetchWeek_eq (fetch : Fetch) :
    fetchWeek fetch = (List.range 5).filterMap fun d =>
      let r := getDayScheduleM fetch d
      if r.success then some (r.day, r.data.getD ⟨[], []⟩) else none := by
  unfold fetchWeek
  rw [foldl_week_filterMap]
  rfl

theorem DAYS_inj : ∀ d1, d1 < 5 → ∀ d2, d2 < 5 → DAYS d1 = DAYS d2 → d1 = d2 := by
  decide

/-- C8 (confirmed): in the week-wide fetch, the five weekday fetches
succeed or fail independently: the response always reports success, a
day's name is a key of the week mapping exactly when that day's fetch
succeeded, and every successful day is present with its parsed data. -/
theorem c8_week_partial (fetch : Fetch) (d : Nat) (hd : d < 5) :
    (handleFetchAll fetch).success = true ∧
    (DAYS d ∈ (handleFetchAll fetch).week.map Prod.fst ↔ ∃ g, fetch d = .ok g) ∧
    (∀ g, fetch d = .ok g →
      (DAYS d, parseClassroomData g) ∈ (handleFetchAll fetch).week) := by
  have hweek : (handleFetchAll fetch).week = fetchWeek fetch := rfl
  rw [hweek, fetchWeek_eq]
  refine ⟨rfl, ⟨?_, ?_⟩, ?_⟩
  · intro hmem
    simp only [List.mem_map, List.mem_filterMap, List.mem_range] at hmem
    obtain ⟨a, ⟨d2, hd5, hf⟩, hfst⟩ := hmem
    cases hfd : fetch d2 with
    | error e =>
      rw [getDayScheduleM_err fetch d2 hd5 e hfd] at hf
      simp at hf
    | ok g =>
      rw [getDayScheduleM_ok fetch d2 hd5 g hfd] at hf
      simp at hf
      rw [← hf] at hfst
      have hdd : d2 = d := DAYS_inj d2 hd5 d hd hfst
      subst hdd
      exact ⟨g, hfd⟩
  · intro hok
    obtain ⟨g, hg⟩ := hok
    simp only [List.mem_map, List.mem_filterMap, List.mem_range]
    refine ⟨(DAYS d, parseClassroomData g), ⟨d, hd, ?_⟩, rfl⟩
    rw [getDayScheduleM_ok fetch d hd g hg]
    rfl
  · intro g hg
    simp only [List.mem_filterMap, List.mem_range]
    refine ⟨d, hd, ?_⟩
    rw [getDayScheduleM_ok fetch d hd g hg]
    rfl

/-- Witness for c8_week_partial at the fetchW oracle, day 0. -/
theorem c8_week_partial_witness :
    (handleFetchAll fetchW).success = true ∧
    (DAYS 0 ∈ (handleFetchAll fetchW).week.map Prod.fst ↔ ∃ g, fetchW 0 = .ok g) ∧
    (∀ g, fetchW 0 = .ok g →
      (DAYS 0, parseClassroomData g) ∈ (handleFetchAll fetchW).week) :=
  c8_week_partial fetchW 0 (by decide)

-- ## Claim C5

theorem slotFilter_eq (a b : Nat) (ts : List TimeSlot) :
    (ts.filter fun slot => if slot.time = [] then false else slotInRange a b slot)
      = ts.filter (slotInRange a b) := by
  apply List.filter_congr
  intro slot _
  by_cases h : slot.time = []
  · rw [if_pos h]
    simp [slotInRange, toMinutes, h]
  · rw [if_neg h]

theorem foldl_guard {α β : Type} (p : α → Bool) (f : α → β) :
    ∀ (l : List α) (acc : List β),
      l.foldl (fun r x => if p x then r ++ [f x] else r) acc
        = acc ++ (l.filter p).map f := by
  intro l
  induction l with
  | nil => intro acc; simp
  | cons x xs ih =>
    intro acc
    simp only [List.foldl_cons, List.filter_cons]
    cases hp : p x with
    | true =>
      simp only [hp, if_true, List.map_cons]
      rw [ih]
      simp
    | false =>
      simp only [hp, Bool.false_eq_true, if_false]
      exact ih acc

theorem c5_body_eq (a b : Nat) (ts : List TimeSlot) :
    (fun (free : List FreeRoom) (c : Classroom) =>
      if c.name = [] then free
      else
        let overlapping := ts.filter fun slot =>
          if slot.time = [] then false else slotInRange a b slot
        if overlapping.length = 0 then free
        else if overlapping.all fun slot => roomFreeAt c slot then
          free ++ [toFreeRoom c]
        else free)
    = fun free c => if freePred ts a b c then free ++ [toFreeRoom c] else free := by
  funext free c
  show (if c.name = [] then free
        else
          if (ts.filter fun slot =>
              if slot.time = [] then false else slotInRange a b slot).length = 0 then free
          else if (ts.filter fun slot =>
              if slot.time = [] then false else slotInRange a b slot).all
              (fun slot => roomFreeAt c slot) then
            free ++ [toFreeRoom c]
          else free) = _
  rw [slotFilter_eq]
  by_cases h1 : c.name = []
  · rw [if_pos h1]
    have hf : freePred ts a b c = false := by simp [freePred, h1]
    rw [hf]
    simp
  · rw [if_neg h1]
    by_cases h2 : (ts.filter (slotInRange a b)).length = 0
    · rw [if_pos h2]
      have hf : freePred ts a b c = false := by simp [freePred, h2]
      rw [hf]
      simp
    · rw [if_neg h2]
      cases h3 : (ts.filter (slotInRange a b)).all fun slot => roomFreeAt c slot with
      | true =>
        have hf : freePred ts a b c = true := by simp [freePred, h1, h2, h3]
        simp only [h3, if_true, hf]
      | false =>
        have hf : freePred ts a b c = false := by simp [freePred, h3]
        simp only [h3, Bool.false_eq_true, if_false, hf]

theorem c5_characterize (cls : List Classroom) (ts : List TimeSlot) (s e : JStr)
    (a b : Nat) (hs : toMinutes s = some a) (he : toMinutes e = some b) :
    findFreeRoomsForTimeRange cls ts s e =
      (cls.filter (freePred ts a b)).map toFreeRoom := by
  unfold findFreeRoomsForTimeRange
  by_cases hg : cls.length = 0 ∨ ts.length = 0
  · rw [if_pos hg]
    rcases hg with hg | hg
    · have hc : cls = [] := List.length_eq_zero.mp hg
      subst hc
      rfl
    · have hc : ts = [] := List.length_eq_zero.mp hg
      subst hc
      symm
      simp [freePred]
  · rw [if_neg hg]
    simp only [hs, he]
    rw [c5_body_eq a b ts, foldl_guard (freePred ts a b) toFreeRoom cls []]
    simp

/-- C5 counterexample: with a single 8:00 slot and the query range
1:00 to 2:00 (parsed to minutes [780, 840)), the room roomFree (empty
schedule, hence unoccupied at every slot) satisfies the claim's condition
vacuously - every in-range slot is unoccupied because no slot is in
range - yet findFreeRoomsForTimeRange returns the empty list, so the
claimed if-and-only-if fails. -/
theorem c5_counterexample :
    findFreeRoomsForTimeRange [roomFree] tsFree ['1', ':', '0', '0'] ['2', ':', '0', '0'] = [] ∧
    toMinutes ['1', ':', '0', '0'] = some 780 ∧
    toMinutes ['2', ':', '0', '0'] = some 840 ∧
    (∀ slot ∈ tsFree, slotInRange 780 840 slot = true →
      roomFreeAt roomFree slot = true) ∧
    roomFree.name ≠ [] :=
  ⟨by decide, by decide, by decide, by decide, by decide⟩

/-- C5 (corrected): if startTime or endTime fails to parse, the result is
the empty sequence; when both parse to a and b, a record is in the result
exactly for the classrooms that have a non-empty name, at least one
TimeSlot with parsed start-minute in [a, b), and no occupying entry
(empty or all-dashes text) at any such slot. A room with no in-range slot
at all is never returned, even though it is vacuously free on the range,
and a room with an empty name is never returned. -/
theorem c5_free_rooms_amended (cls : List Classroom) (ts : List TimeSlot)
    (s e : JStr) :
    ((toMinutes s = none ∨ toMinutes e = none) →
      findFreeRoomsForTimeRange cls ts s e = []) ∧
    (∀ a b, toMinutes s = some a → toMinutes e = some b →
      ∀ r, r ∈ findFreeRoomsForTimeRange cls ts s e ↔
        ∃ c ∈ cls, c.name ≠ [] ∧
          (∃ slot ∈ ts, slotInRange a b slot = true) ∧
          (∀ slot ∈ ts, slotInRange a b slot = true → roomFreeAt c slot = true) ∧
          r = toFreeRoom c) := by
  constructor
  · intro hfail
    unfold findFreeRoomsForTimeRange
    by_cases hg : cls.length = 0 ∨ ts.length = 0
    · rw [if_pos hg]
    · rw [if_neg hg]
      rcases hfail with hfail | hfail
      · rw [hfail]
      · rw [hfail]
        cases toMinutes s <;> rfl
  · intro a b hs he r
    rw [c5_characterize cls ts s e a b hs he]
    simp only [List.mem_map, List.mem_filter]
    constructor
    · rintro ⟨c, ⟨hcls, hp⟩, hr⟩
      simp only [freePred, Bool.and_eq_true, Bool.not_eq_true', decide_eq_false_iff_not,
        List.all_eq_true] at hp
      obtain ⟨⟨hn, hne⟩, hall⟩ := hp
      refine ⟨c, hcls, hn, ?_, ?_, hr.symm⟩
      · have hnil : ts.filter (slotInRange a b) ≠ [] := by
          intro hnil
          rw [hnil] at hne
          exact hne rfl
        obtain ⟨slot, hslot⟩ := List.exists_mem_of_ne_nil _ hnil
        have hm := List.mem_filter.mp hslot
        exact ⟨slot, hm.1, hm.2⟩
      · intro slot hmem hin
        exact hall slot (List.mem_filter.mpr ⟨hmem, hin⟩)
    · rintro ⟨c, hcls, hn, ⟨slot, hslot, hin⟩, hall, hr⟩
      refine ⟨c, ⟨hcls, ?_⟩, hr.symm⟩
      simp only [freePred, Bool.and_eq_true, Bool.not_eq_true', decide_eq_false_iff_not,
        List.all_eq_true]
      refine ⟨⟨hn, ?_⟩, ?_⟩
      · intro hlen
        have hmem : slot ∈ ts.filter (slotInRange a b) := List.mem_filter.mpr ⟨hslot, hin⟩
        rw [List.length_eq_zero.mp hlen] at hmem
        simp at hmem
      · intro x hx
        have hm := List.mem_filter.mp hx
        exact hall x hm.1 hm.2

/-- Witness for c5_free_rooms_amended: the 8:00-9:00 range over tsFree,
checked for the record of roomFree. -/
theorem c5_free_rooms_amended_witness :
    toFreeRoom roomFree ∈
      findFreeRoomsForTimeRange [roomFree] tsFree ['8', ':', '0', '0'] ['9', ':', '0', '0'] ↔
    ∃ c ∈ [roomFree], c.name ≠ [] ∧
      (∃ slot ∈ tsFree, slotInRange 480 540 slot = true) ∧
      (∀ slot ∈ tsFree, slotInRange 480 540 slot = true → roomFreeAt c slot = true) ∧
      toFreeRoom roomFree = toFreeRoom c :=
  (c5_free_rooms_amended [roomFree] tsFree ['8', ':', '0', '0'] ['9', ':', '0', '0']).2
    480 540 (by decide) (by decide) (toFreeRoom roomFree)

-- ## Claim C3

theorem entryMk_some_facts {ts : List TimeSlot} {cells : List (Option Cell)}
    {j s : Nat} {e : ScheduleEntry} (h : entryMk ts cells j s = some e) :
    e.timeIndex = j + s ∧ e.«class» = getText cells j ∧
    e.code = extractClassCode (getText cells j) ∧
    (ts.find? fun t => t.index = j + s).isSome = true := by
  unfold entryMk at h
  cases hf : ts.find? fun t => t.index = j + s with
  | none =>
    rw [hf] at h
    simp at h
  | some slot =>
    rw [hf] at h
    simp only [Option.map_some'] at h
    have h2 := Option.some.inj h
    subst h2
    exact ⟨rfl, rfl, rfl, rfl⟩

theorem cellEntries_eq_filterMap (ts : List TimeSlot) (cells : List (Option Cell))
    (j : Nat) :
    cellEntries ts cells j =
      (List.range (effSpan cells j).toNat).filterMap (entryMk ts cells j) := rfl

theorem countAt_append (c : Nat) (l1 l2 : List ScheduleEntry) :
    countAt c (l1 ++ l2) = countAt c l1 + countAt c l2 := by
  unfold countAt
  rw [List.filter_append, List.length_append]

theorem countAt_eq_zero {c : Nat} {l : List ScheduleEntry}
    (h : ∀ e ∈ l, e.timeIndex ≠ c) : countAt c l = 0 := by
  unfold countAt
  rw [List.length_eq_zero, List.filter_eq_nil_iff]
  intro e he
  simpa using h e he

theorem countAt_filterMap_range (ts : List TimeSlot) (cells : List (Option Cell))
    (j c : Nat) :
    ∀ n, countAt c ((List.range n).filterMap (entryMk ts cells j)) =
      if j ≤ c ∧ c < j + n ∧ (ts.find? fun t => t.index = c).isSome = true then 1
      else 0 := by
  intro n
  induction n with
  | zero =>
    rw [if_neg]
    · rfl
    · rintro ⟨h1, h2, -⟩
      omega
  | succ n ih =>
    rw [List.range_succ, List.filterMap_append, countAt_append, ih]
    have hsingle : countAt c (List.filterMap (entryMk ts cells j) [n]) =
        if c = j + n ∧ (ts.find? fun t => t.index = c).isSome = true then 1
        else 0 := by
      cases hmk : entryMk ts cells j n with
      | none =>
        have hfind : (ts.find? fun t => t.index = j + n) = none := by
          unfold entryMk at hmk
          cases hf : ts.find? fun t => t.index = j + n
          · rfl
          · rw [hf] at hmk
            simp at hmk
        simp only [List.filterMap_cons, hmk, List.filterMap_nil]
        rw [if_neg]
        · rfl
        · rintro ⟨hc, hsome⟩
          subst hc
          rw [hfind] at hsome
          simp at hsome
      | some e =>
        obtain ⟨hidx, -, -, hsome⟩ := entryMk_some_facts hmk
        simp only [List.filterMap_cons, hmk, List.filterMap_nil]
        unfold countAt
        by_cases hc : c = j + n
        · subst hc
          rw [List.filter_cons, if_pos (by simp [hidx]), if_pos ⟨rfl, hsome⟩]
          rfl
        · have hz : ¬(c = j + n ∧ (ts.find? fun t => t.index = c).isSome = true) :=
            fun h => hc h.1
          rw [List.filter_cons, if_neg (by simp only [hidx]; simpa using fun h => hc h.symm),
            if_neg hz]
          rfl
    rw [hsingle]
    by_cases hc : c = j + n
    · subst hc
      rw [if_neg (by rintro ⟨-, h2, -⟩; omega)]
      cases hs : (ts.find? fun t => t.index = (j + n)).isSome with
      | true =>
        rw [if_pos ⟨rfl, rfl⟩, if_pos ⟨by omega, by omega, rfl⟩]
      | false =>
        rw [if_neg (by rintro ⟨-, h3⟩; exact Bool.false_ne_true h3),
          if_neg (by rintro ⟨-, -, h3⟩; exact Bool.false_ne_true h3)]
    · have hz : ¬(c = j + n ∧ (ts.find? fun t => t.index = c).isSome = true) :=
        fun h => hc h.1
      rw [if_neg hz]
      by_cases hin : j ≤ c ∧ c < j + n ∧ (ts.find? fun t => t.index = c).isSome = true
      · obtain ⟨h1, h2, h3⟩ := hin
        rw [if_pos ⟨h1, h2, h3⟩, if_pos ⟨h1, by omega, h3⟩]
      · rw [if_neg hin, if_neg (by
          rintro ⟨h1, h2, h3⟩
          exact hin ⟨h1, by omega, h3⟩)]

theorem countAt_cellEntries (ts : List TimeSlot) (cells : List (Option Cell))
    (j c : Nat) :
    countAt c (cellEntries ts cells j) =
      if j ≤ c ∧ c < j + (effSpan cells j).toNat ∧
         (ts.find? fun t => t.index = c).isSome = true then 1
      else 0 := by
  rw [cellEntries_eq_filterMap]
  exact countAt_filterMap_range ts cells j c (effSpan cells j).toNat

theorem labExtra_zero_or_lt (cells : List (Option Cell)) :
    ∀ fuel j, labExtra cells j fuel = 0 ∨ j + labExtra cells j fuel < cells.length := by
  intro fuel
  induction fuel with
  | zero => intro j; exact Or.inl rfl
  | succ fuel ih =>
    intro j
    simp only [labExtra]
    by_cases hb : cells.length ≤ j + 1
    · rw [if_pos hb]
      exact Or.inl rfl
    · rw [if_neg hb]
      by_cases he : getText cells (j + 1) = []
      · rw [if_pos he]
        rcases ih (j + 1) with h0 | hlt
        · right
          rw [h0]
          omega
        · right
          omega
      · rw [if_neg he]
        exact Or.inl rfl

theorem labExtra_consumed (cells : List (Option Cell)) :
    ∀ fuel j s, 1 ≤ s → s ≤ labExtra cells j fuel → getText cells (j + s) = [] := by
  intro fuel
  induction fuel with
  | zero =>
    intro j s h1 h2
    simp only [labExtra] at h2
    omega
  | succ fuel ih =>
    intro j s h1 h2
    simp only [labExtra] at h2
    by_cases hb : cells.length ≤ j + 1
    · rw [if_pos hb] at h2
      omega
    · rw [if_neg hb] at h2
      by_cases he : getText cells (j + 1) = []
      · rw [if_pos he] at h2
        by_cases hs1 : s = 1
        · subst hs1
          exact he
        · have hle : s - 1 ≤ labExtra cells (j + 1) fuel := by omega
          have h3 := ih (j + 1) (s - 1) (by omega) hle
          have harith : j + 1 + (s - 1) = j + s := by omega
          rw [harith] at h3
          exact h3
      · rw [if_neg he] at h2
        omega

theorem effSpan_no_meta_eq (cells : List (Option Cell)) (j : Nat)
    (hm : explicitSpanAt cells j = none) :
    effSpan cells j =
      if getText cells j ≠ [] ∧ hasLabWord (getText cells j) = true then
        1 + (labExtra cells j MAX_LOOKAHEAD : Int)
      else 1 := by
  unfold effSpan rawSpan
  rw [hm]
  show (if (Option.getD none 1 : Int) = 1 ∧ getText cells j ≠ [] ∧
           hasLabWord (getText cells j) = true then
          1 + (labExtra cells j MAX_LOOKAHEAD : Int)
        else Option.getD none 1) = _
  by_cases hc : getText cells j ≠ [] ∧ hasLabWord (getText cells j) = true
  · rw [if_pos ⟨rfl, hc.1, hc.2⟩, if_pos hc]
  · rw [if_neg (fun h => hc ⟨h.2.1, h.2.2⟩), if_neg hc]
    rfl

theorem effSpan_shape (cells : List (Option Cell)) (j : Nat)
    (hm : explicitSpanAt cells j = none) :
    ∃ ex : Nat, (effSpan cells j).toNat = 1 + ex ∧
      (ex = 0 ∨ j + ex < cells.length) ∧
      ∀ s, 1 ≤ s → s ≤ ex → getText cells (j + s) = [] := by
  rw [effSpan_no_meta_eq cells j hm]
  by_cases hc : getText cells j ≠ [] ∧ hasLabWord (getText cells j) = true
  · rw [if_pos hc]
    exact ⟨labExtra cells j MAX_LOOKAHEAD, by omega,
      labExtra_zero_or_lt cells MAX_LOOKAHEAD j,
      fun s h1 h2 => labExtra_consumed cells MAX_LOOKAHEAD j s h1 h2⟩
  · rw [if_neg hc]
    exact ⟨0, rfl, Or.inl rfl, fun s h1 h2 => by omega⟩

theorem processCells_timeIndex_ge (ts : List TimeSlot) (cells : List (Option Cell)) :
    ∀ fuel j, cells.length - j ≤ fuel →
      ∀ e ∈ processCells ts cells j, j ≤ e.timeIndex := by
  intro fuel
  induction fuel with
  | zero =>
    intro j hj e he
    rw [processCells_eq, if_neg (by omega)] at he
    simp at he
  | succ fuel ih =>
    intro j hj e he
    rw [processCells_eq] at he
    by_cases h : j < cells.length
    · rw [if_pos h] at he
      rcases List.mem_append.mp he with he | he
      · rw [cellEntries_eq_filterMap] at he
        obtain ⟨s, -, hmk⟩ := List.mem_filterMap.mp he
        have hfacts := (entryMk_some_facts hmk).1
        omega
      · have hstep := stepOf_pos cells j
        have := ih (j + stepOf cells j) (by omega) e he
        omega
    · rw [if_neg h] at he
      simp at he

theorem processCells_count (ts : List TimeSlot) (cells : List (Option Cell))
    (hmeta : ∀ k, k < cells.length → explicitSpanAt cells k = none) :
    ∀ fuel j c, cells.length - j ≤ fuel → j ≤ c →
      countAt c (processCells ts cells j) =
        if c < cells.length ∧ (ts.find? fun t => t.index = c).isSome = true then 1
        else 0 := by
  intro fuel
  induction fuel with
  | zero =>
    intro j c hj hc
    rw [processCells_eq, if_neg (by omega), if_neg (by rintro ⟨h1, -⟩; omega)]
    rfl
  | succ fuel ih =>
    intro j c hj hc
    rw [processCells_eq]
    by_cases h : j < cells.length
    · rw [if_pos h, countAt_append, countAt_cellEntries]
      obtain ⟨ex, hex, hbound, hcons⟩ := effSpan_shape cells j (hmeta j h)
      have hstep : stepOf cells j = (effSpan cells j).toNat := by
        unfold stepOf
        by_cases h2 : 1 < effSpan cells j
        · rw [if_pos h2]
        · rw [if_neg h2]
          omega
      by_cases hcr : c < j + (effSpan cells j).toNat
      · have htail : countAt c (processCells ts cells (j + stepOf cells j)) = 0 := by
          apply countAt_eq_zero
          intro e he
          have hge := processCells_timeIndex_ge ts cells fuel (j + stepOf cells j)
            (by have := stepOf_pos cells j; omega) e he
          omega
        rw [htail]
        have hclen : c < cells.length := by
          rcases hbound with h0 | hlt
          · omega
          · omega
        cases hsome : (ts.find? fun t => t.index = c).isSome with
        | true =>
          rw [if_pos ⟨hc, hcr, rfl⟩, if_pos ⟨hclen, rfl⟩]
        | false =>
          rw [if_neg (by rintro ⟨-, -, h3⟩; exact Bool.false_ne_true h3),
            if_neg (by rintro ⟨-, h3⟩; exact Bool.false_ne_true h3)]
      · rw [if_neg (by rintro ⟨-, h2, -⟩; exact hcr h2)]
        rw [ih (j + stepOf cells j) c (by have := stepOf_pos cells j; omega) (by omega)]
        rw [Nat.zero_add]
    · rw [if_neg h, if_neg (by rintro ⟨h1, -⟩; omega)]
      rfl

theorem processCells_entry_facts (ts : List TimeSlot) (cells : List (Option Cell))
    (hmeta : ∀ k, k < cells.length → explicitSpanAt cells k = none) :
    ∀ fuel j, cells.length - j ≤ fuel →
      ∀ e ∈ processCells ts cells j,
        e.timeIndex < cells.length ∧
        (ts.find? fun t => t.index = e.timeIndex).isSome = true ∧
        (getText cells e.timeIndex ≠ [] → e.«class» = getText cells e.timeIndex) := by
  intro fuel
  induction fuel with
  | zero =>
    intro j hj e he
    rw [processCells_eq, if_neg (by omega)] at he
    simp at he
  | succ fuel ih =>
    intro j hj e he
    rw [processCells_eq] at he
    by_cases h : j < cells.length
    · rw [if_pos h] at he
      rcases List.mem_append.mp he with he | he
      · rw [cellEntries_eq_filterMap] at he
        obtain ⟨s, hsr, hmk⟩ := List.mem_filterMap.mp he
        have hsn := List.mem_range.mp hsr
        obtain ⟨hidx, hcls, -, hsome⟩ := entryMk_some_facts hmk
        obtain ⟨ex, hex, hbound, hcons⟩ := effSpan_shape cells j (hmeta j h)
        refine ⟨?_, ?_, ?_⟩
        · rcases hbound with h0 | hlt
          · omega
          · omega
        · rw [hidx]
          exact hsome
        · intro hne
          by_cases hs0 : s = 0
          · subst hs0
            rw [hidx]
            exact hcls
          · exfalso
            apply hne
            rw [hidx]
            exact hcons s (by omega) (by omega)
      · have hstep := stepOf_pos cells j
        exact ih (j + stepOf cells j) (by omega) e he
    · rw [if_neg h] at he
      simp at he

/-- C3 counterexample: in the metadata-free grid gC3, the cell at column 1
is empty, yet the parser's output contains a ScheduleEntry at (R1, column
1) with empty classText - the parser emits one entry for every column
with a defined TimeSlot, empty cells included, contradicting the claim
that entries exist only at (room, non-empty cell) pairs. -/
theorem c3_counterexample :
    (parseClassroomData gC3).classrooms.map (fun c => c.schedule) =
      [[⟨1, ['8', ':', '0', '0', '-', '8', ':', '5', '0'], [], []⟩,
        ⟨2, ['8', ':', '5', '0', '-', '9', ':', '4', '0'],
          ['B', 'C', 'S', '-', '1', 'G'], ['B', 'C', 'S', '-', '1', 'G']⟩]] ∧
    getText cellsC3 1 = [] :=
  ⟨by decide, by decide⟩

/-- C3 (corrected): for a data row none of whose cells carries span
metadata, the produced Classroom has exactly one ScheduleEntry per column
c (1 or greater) that lies within the row's cells and has a defined
TimeSlot - empty cells included - and no entries anywhere else; every
entry sits at a column with a defined TimeSlot inside the row, and an
entry at a column whose own cell text is non-empty carries exactly that
cell's text (columns consumed by the lab fallback are empty cells and
inherit the lab cell's text). The second conjunct ties every classroom of
the full parser output to the data row it came from. -/
theorem c3_no_span_amended :
    (∀ ts row cells cl c, row.c = some cells →
      (∀ k, k < cells.length → explicitSpanAt cells k = none) →
      parseRow ts row = some cl →
      (1 ≤ c → countAt c cl.schedule =
        (if c < cells.length ∧ (ts.find? fun t => t.index = c).isSome = true then 1
         else 0)) ∧
      (∀ e ∈ cl.schedule, 1 ≤ e.timeIndex ∧ e.timeIndex < cells.length ∧
        (ts.find? fun t => t.index = e.timeIndex).isSome = true) ∧
      (getText cells c ≠ [] → ∀ e ∈ cl.schedule, e.timeIndex = c →
        e.«class» = getText cells c)) ∧
    (∀ g cl, cl ∈ (parseClassroomData g).classrooms →
      ∃ t rows row, g.table = some t ∧ t.rows = some rows ∧ row ∈ rows.drop 2 ∧
        parseRow (timeSlotsOfRows rows) row = some cl) := by
  constructor
  · intro ts row cells cl c hc hmeta hrow
    obtain ⟨rc⟩ := row
    have hrc : rc = some cells := hc
    subst hrc
    have hsched : cl.schedule = processCells ts cells 1 := by
      simp only [parseRow] at hrow
      by_cases h0 : cells.length = 0
      · rw [if_pos h0] at hrow
        simp at hrow
      · rw [if_neg h0] at hrow
        cases hv : rowNameVal ⟨some cells⟩ with
        | none =>
          simp only [hv] at hrow
          simp at hrow
        | some s =>
          simp only [hv] at hrow
          by_cases hse : s = []
          · rw [if_pos hse] at hrow
            simp at hrow
          · rw [if_neg hse] at hrow
            have h2 := Option.some.inj hrow
            rw [← h2]
    refine ⟨?_, ?_, ?_⟩
    · intro h1c
      rw [hsched]
      exact processCells_count ts cells hmeta cells.length 1 c (by omega) h1c
    · intro e he
      rw [hsched] at he
      have hge := processCells_timeIndex_ge ts cells cells.length 1 (by omega) e he
      have hfacts := processCells_entry_facts ts cells hmeta cells.length 1
        (by omega) e he
      exact ⟨hge, hfacts.1, hfacts.2.1⟩
    · intro hne e he hidx
      rw [hsched] at he
      have hfacts := processCells_entry_facts ts cells hmeta cells.length 1
        (by omega) e he
      have := hfacts.2.2 (by rw [hidx]; exact hne)
      rw [hidx] at this
      exact this
  · intro g cl hcl
    obtain ⟨tb⟩ := g
    cases tb with
    | none => simp [parseClassroomData] at hcl
    | some t =>
      obtain ⟨rws⟩ := t
      cases rws with
      | none => simp [parseClassroomData] at hcl
      | some rows =>
        simp only [parseClassroomData] at hcl
        by_cases hlen : rows.length < 3
        · rw [if_pos hlen] at hcl
          simp at hcl
        · rw [if_neg hlen] at hcl
          simp only [List.mem_filterMap] at hcl
          obtain ⟨row, hmem, hrow⟩ := hcl
          exact ⟨⟨some rows⟩, rows, row, rfl, rfl, hmem, hrow⟩

/-- Witness for c3_no_span_amended: the metadata-free lab row cellsC2
under the ts3 slots, checked at column 1. -/
theorem c3_no_span_amended_witness :
    (1 ≤ 1 → countAt 1 clC3w.schedule =
      (if 1 < cellsC2.length ∧ (ts3.find? fun t => t.index = 1).isSome = true then 1
       else 0)) ∧
    (∀ e ∈ clC3w.schedule, 1 ≤ e.timeIndex ∧ e.timeIndex < cellsC2.length ∧
      (ts3.find? fun t => t.index = e.timeIndex).isSome = true) ∧
    (getText cellsC2 1 ≠ [] → ∀ e ∈ clC3w.schedule, e.timeIndex = 1 →
      e.«class» = getText cellsC2 1) :=
  c3_no_span_amended.1 ts3 ⟨some cellsC2⟩ cellsC2 clC3w 1 rfl (by decide) (by decide)

-- ## Claim C4

theorem insSort_of_chainLe {α : Type} (le : α → α → Bool) :
    ∀ l : List α, chainLe le l = true → insSort le l = l := by
  intro l
  induction l with
  | nil => intro _; rfl
  | cons x xs ih =>
    intro h
    cases xs with
    | nil => rfl
    | cons y ys =>
      simp only [chainLe, Bool.and_eq_true] at h
      show insSorted le x (insSort le (y :: ys)) = x :: y :: ys
      rw [ih h.2]
      show (if le x y then x :: y :: ys else y :: insSorted le x ys) = x :: y :: ys
      rw [if_pos h.1]

theorem getLastD_irrel {α : Type} [Inhabited α] :
    ∀ (l : List α), l ≠ [] → ∀ d1 d2 : α, l.getLastD d1 = l.getLastD d2 := by
  intro l hl d1 d2
  cases l with
  | nil => exact absurd rfl hl
  | cons x xs => rw [List.getLastD_cons, List.getLastD_cons]

theorem getLastD_mem {α : Type} [Inhabited α] :
    ∀ (l : List α), l ≠ [] → l.getLastD default ∈ l := by
  intro l
  induction l with
  | nil => intro h; exact absurd rfl h
  | cons x xs ih =>
    intro _
    cases hxs : xs with
    | nil => simp
    | cons y ys =>
      have h2 := ih (by rw [hxs]; simp)
      rw [hxs] at h2
      have h3 : (x :: y :: ys).getLastD default = (y :: ys).getLastD default := by
        rw [List.getLastD_cons]
        exact getLastD_irrel (y :: ys) (by simp) x default
      rw [h3]
      exact List.mem_cons_of_mem x h2

theorem headD_append {α : Type} [Inhabited α] (l1 l2 : List α) (h : l1 ≠ []) :
    (l1 ++ l2).headD default = l1.headD default := by
  cases l1 with
  | nil => exact absurd rfl h
  | cons x xs => rfl

theorem takeRun_facts (l : List ScheduleEntry) :
    ∀ e : ScheduleEntry,
      (takeRun e l).1 ++ (takeRun e l).2 = e :: l ∧
      (takeRun e l).1 ≠ [] ∧
      (takeRun e l).1.headD default = e ∧
      chainSuccB (takeRun e l).1 = true ∧
      ((takeRun e l).2 = [] ∨
        ((takeRun e l).2.headD default).timeIndex ≠
          ((takeRun e l).1.getLastD default).timeIndex + 1) := by
  induction l with
  | nil =>
    intro e
    exact ⟨rfl, by simp [takeRun], rfl, rfl, Or.inl rfl⟩
  | cons x xs ih =>
    intro e
    by_cases hx : x.timeIndex = e.timeIndex + 1
    · have hrun : takeRun e (x :: xs) =
          (e :: (takeRun x xs).1, (takeRun x xs).2) := by
        show (if x.timeIndex = e.timeIndex + 1 then
                (e :: (takeRun x xs).1, (takeRun x xs).2)
              else ([e], x :: xs)) = _
        rw [if_pos hx]
      obtain ⟨ha, hne, hhd, hch, hbd⟩ := ih x
      obtain ⟨r1, hr1⟩ : ∃ r1, (takeRun x xs).1 = x :: r1 := by
        cases hr : (takeRun x xs).1 with
        | nil => rw [hr] at hne; exact absurd rfl hne
        | cons a r1 =>
          rw [hr] at hhd
          have ha2 : a = x := hhd
          subst ha2
          exact ⟨r1, rfl⟩
      rw [hrun]
      refine ⟨?_, by simp, rfl, ?_, ?_⟩
      · show e :: ((takeRun x xs).1 ++ (takeRun x xs).2) = e :: x :: xs
        rw [ha]
      · show chainSuccB (e :: (takeRun x xs).1) = true
        rw [hr1]
        show (decide (x.timeIndex = e.timeIndex + 1) &&
          chainSuccB (x :: r1)) = true
        rw [← hr1, hch]
        simp [hx]
      · rcases hbd with hbd | hbd
        · exact Or.inl hbd
        · right
          have hlast : (e :: (takeRun x xs).1).getLastD default =
              (takeRun x xs).1.getLastD default := by
            rw [List.getLastD_cons]
            exact getLastD_irrel _ hne e default
          rw [hlast]
          exact hbd
    · have hrun : takeRun e (x :: xs) = ([e], x :: xs) := by
        show (if x.timeIndex = e.timeIndex + 1 then
                (e :: (takeRun x xs).1, (takeRun x xs).2)
              else ([e], x :: xs)) = _
        rw [if_neg hx]
      rw [hrun]
      exact ⟨rfl, by simp, rfl, rfl, Or.inr (by simpa using hx)⟩

theorem labRunsOf_facts_aux :
    ∀ fuel (l : List ScheduleEntry), l.length ≤ fuel →
      (labRunsOf l).flatten = l ∧
      (∀ r ∈ labRunsOf l, r ≠ [] ∧ chainSuccB r = true) ∧
      runsBoundariesOk (labRunsOf l) = true := by
  intro fuel
  induction fuel with
  | zero =>
    intro l hl
    have hn : l = [] := List.length_eq_zero.mp (Nat.le_zero.mp hl)
    subst hn
    exact ⟨rfl, by intro r hr; simp [labRunsOf, labRunsOfF] at hr, rfl⟩
  | succ fuel ih =>
    intro l hl
    cases l with
    | nil => exact ⟨rfl, by intro r hr; simp [labRunsOf, labRunsOfF] at hr, rfl⟩
    | cons s rest =>
      obtain ⟨ha, hne, hhd, hch, hbd⟩ := takeRun_facts rest s
      have hlen : (takeRun s rest).2.length ≤ fuel := by
        have := takeRun_snd_le s rest
        simp only [List.length_cons] at hl
        omega
      obtain ⟨ihj, ihr, ihb⟩ := ih (takeRun s rest).2 hlen
      rw [labRunsOf_cons]
      refine ⟨?_, ?_, ?_⟩
      · show (takeRun s rest).1 ++ (labRunsOf (takeRun s rest).2).flatten = s :: rest
        rw [ihj, ha]
      · intro r hr
        rcases List.mem_cons.mp hr with hr | hr
        · subst hr
          exact ⟨hne, hch⟩
        · exact ihr r hr
      · cases hruns : labRunsOf (takeRun s rest).2 with
        | nil => rfl
        | cons r2 rs2 =>
          show (!(decide ((r2.headD default).timeIndex =
              ((takeRun s rest).1.getLastD default).timeIndex + 1)) &&
            runsBoundariesOk (r2 :: rs2)) = true
          rw [← hruns, ihb, Bool.and_true]
          have hrest_ne : (takeRun s rest).2 ≠ [] := by
            intro hnil
            rw [hnil] at hruns
            simp [labRunsOf, labRunsOfF] at hruns
          rcases hbd with hbd | hbd
          · exact absurd hbd hrest_ne
          · have hr2ne : r2 ≠ [] := (ihr r2 (by rw [hruns]; simp)).1
            have hhead : r2.headD default = (takeRun s rest).2.headD default := by
              have hjj : (takeRun s rest).2 = r2 ++ rs2.flatten := by
                rw [← ihj, hruns]
                rfl
              rw [hjj, headD_append r2 rs2.flatten hr2ne]
            rw [hhead]
            simpa using hbd

theorem labRunsOf_facts (l : List ScheduleEntry) :
    (labRunsOf l).flatten = l ∧
    (∀ r ∈ labRunsOf l, r ≠ [] ∧ chainSuccB r = true) ∧
    runsBoundariesOk (labRunsOf l) = true :=
  labRunsOf_facts_aux l.length l (Nat.le_refl _)

theorem splitChar_ne_nil (sep : Char) : ∀ l : JStr, splitChar sep l ≠ [] := by
  intro l
  cases l with
  | nil => simp [splitChar]
  | cons c cs =>
    show (if c = sep then [] :: splitChar sep cs
          else match splitChar sep cs with
               | [] => [[c]]
               | p :: ps => (c :: p) :: ps) ≠ []
    by_cases hc : c = sep
    · rw [if_pos hc]
      simp
    · rw [if_neg hc]
      cases splitChar sep cs <;> simp

theorem splitChar_length_ge_two {sep : Char} :
    ∀ {l : JStr}, sep ∈ l → 2 ≤ (splitChar sep l).length := by
  intro l
  induction l with
  | nil => intro h; simp at h
  | cons c cs ih =>
    intro h
    show 2 ≤ (if c = sep then [] :: splitChar sep cs
              else match splitChar sep cs with
                   | [] => [[c]]
                   | p :: ps => (c :: p) :: ps).length
    by_cases hc : c = sep
    · rw [if_pos hc]
      have h1 := splitChar_ne_nil sep cs
      have h2 : 1 ≤ (splitChar sep cs).length := by
        cases hx : splitChar sep cs
        · exact absurd hx h1
        · simp
      simp only [List.length_cons]
      omega
    · rw [if_neg hc]
      have hmem : sep ∈ cs := by
        rcases List.mem_cons.mp h with h | h
        · exact absurd h.symm hc
        · exact h
      have h2 := ih hmem
      cases hx : splitChar sep cs with
      | nil => exact absurd hx (splitChar_ne_nil sep cs)
      | cons p ps =>
        rw [hx] at h2
        simpa using h2

theorem splitChar_get1_some {l : JStr} (h : '-' ∈ l) :
    ∃ p2, (splitChar '-' l).get? 1 = some p2 := by
  have h2 := splitChar_length_ge_two h
  cases hg : (splitChar '-' l).get? 1 with
  | none =>
    have := List.get?_eq_none.mp hg
    omega
  | some p2 => exact ⟨p2, rfl⟩

theorem runTime_ok : ∀ (r : List ScheduleEntry), r ≠ [] →
    '-' ∈ (r.getLastD default).time → runTime r = .ok (runTimeStr r) := by
  intro r hne hdash
  cases r with
  | nil => exact absurd rfl hne
  | cons s rest =>
    cases rest with
    | nil => rfl
    | cons x rest2 =>
      have hge : (s :: x :: rest2).getLast (by simp) =
          (s :: x :: rest2).getLastD default := by
        rw [List.getLastD_eq_getLast?, List.getLast?_eq_getLast _ (by simp)]
        rfl
      obtain ⟨p2, hp2⟩ := splitChar_get1_some hdash
      show (match (splitChar '-' (((s :: x :: rest2).getLast (by simp)).time)).get? 1 with
            | none => Except.error ()
            | some p2 =>
              Except.ok (trim ((splitChar '-' s.time).getD 0 []) ++ '-' :: trim p2))
          = Except.ok (runTimeStr (s :: x :: rest2))
      rw [hge, hp2]
      unfold runTimeStr
      rw [if_neg (by simp)]
      have hgd : (splitChar '-' ((s :: x :: rest2).getLastD default).time).getD 1 [] = p2 := by
        unfold List.getD
        rw [hp2]
        rfl
      rw [hgd]
      rfl

theorem mergeRunList_ok (name txt : JStr) :
    ∀ runs : List (List ScheduleEntry),
      (∀ r ∈ runs, r ≠ [] ∧ '-' ∈ (r.getLastD default).time) →
      mergeRunList name txt runs =
        .ok (runs.map fun r => runResult name txt r (runTimeStr r)) := by
  intro runs
  induction runs with
  | nil => intro _; rfl
  | cons r rs ih =>
    intro h
    have hr := h r (List.mem_cons_self r rs)
    have hrt := runTime_ok r hr.1 hr.2
    show (match runTime r with
          | Except.error e => Except.error e
          | Except.ok t =>
            match mergeRunList name txt rs with
            | Except.error e => Except.error e
            | Except.ok rest => Except.ok (runResult name txt r t :: rest)) = _
    rw [hrt, ih fun x hx => h x (List.mem_cons_of_mem _ hx)]
    rfl

/-- C4 counterexample: the class text Syllabus does not match the
whole-word lab test, so by the claim its two contiguous slots must yield
two separate results with their own times; but the search engine's lab
test is a plain substring test, Syllabus contains lab, and searchClasses
returns a single merged result. -/
theorem c4_counterexample :
    hasLabWord ['S', 'y', 'l', 'l', 'a', 'b', 'u', 's'] = false ∧
    searchClasses [roomSyl] ['s', 'y', 'l'] =
      .ok [⟨['R', '1'], ['S', 'y', 'l', 'l', 'a', 'b', 'u', 's'], [],
        ['8', ':', '0', '0', '-', '9', ':', '4', '0'],
        descStr ['R', '1'] [] ['8', ':', '0', '0', '-', '9', ':', '4', '0']⟩] :=
  ⟨by decide, by decide⟩

/-- C4 (corrected): with the group sorted by timeIndex ascending (and
every slot time containing a hyphen, so the merge cannot throw): a group
whose class text does NOT contain the substring lab (case-insensitively)
yields one result per slot with that slot's own time; a group whose class
text DOES contain it is decomposed into maximal index-contiguous runs -
the runs concatenate back to the group, each run is contiguous, adjacent
runs are separated by an index break - and yields one result per run
whose time is the first slot's start part joined by a hyphen to the last
slot's end part (each split on the hyphen), a single-slot run keeping its
own time. The heuristic is a substring test, not the whole-word lab
regex the parser uses. -/
theorem c4_lab_merge_amended (name txt : JStr) (slots : List ScheduleEntry)
    (hsorted : chainLe (fun a b => decide (a.timeIndex ≤ b.timeIndex)) slots = true)
    (hdash : ∀ s ∈ slots, '-' ∈ s.time) :
    (includesLab txt = false →
      processGroup name txt slots = .ok (slots.map (perSlotResult name txt))) ∧
    (includesLab txt = true →
      (labRunsOf slots).flatten = slots ∧
      (∀ r ∈ labRunsOf slots, r ≠ [] ∧ chainSuccB r = true) ∧
      runsBoundariesOk (labRunsOf slots) = true ∧
      processGroup name txt slots =
        .ok ((labRunsOf slots).map fun r => runResult name txt r (runTimeStr r))) := by
  have hsort : sortByIdx slots = slots := insSort_of_chainLe _ slots hsorted
  constructor
  · intro hfalse
    simp only [processGroup]
    rw [hsort, if_pos hfalse]
  · intro htrue
    obtain ⟨hj, hr, hb⟩ := labRunsOf_facts slots
    refine ⟨hj, hr, hb, ?_⟩
    simp only [processGroup]
    rw [hsort, if_neg (by rw [htrue]; simp)]
    apply mergeRunList_ok
    intro r hrr
    refine ⟨(hr r hrr).1, ?_⟩
    have hmem : r.getLastD default ∈ slots := by
      rw [← hj]
      exact List.mem_flatten.mpr ⟨r, hrr, getLastD_mem r (hr r hrr).1⟩
    exact hdash _ hmem

/-- Witness for c4_lab_merge_amended: three contiguous lab slots merge
into one result spanning first start to last end. -/
theorem c4_lab_merge_amended_witness :
    (includesLab ['F', 'E', ' ', 'L', 'a', 'b'] = false →
      processGroup ['R', '1'] ['F', 'E', ' ', 'L', 'a', 'b'] labSlots3 =
        .ok (labSlots3.map (perSlotResult ['R', '1'] ['F', 'E', ' ', 'L', 'a', 'b']))) ∧
    (includesLab ['F', 'E', ' ', 'L', 'a', 'b'] = true →
      (labRunsOf labSlots3).flatten = labSlots3 ∧
      (∀ r ∈ labRunsOf labSlots3, r ≠ [] ∧ chainSuccB r = true) ∧
      runsBoundariesOk (labRunsOf labSlots3) = true ∧
      processGroup ['R', '1'] ['F', 'E', ' ', 'L', 'a', 'b'] labSlots3 =
        .ok ((labRunsOf labSlots3).map fun r =>
          runResult ['R', '1'] ['F', 'E', ' ', 'L', 'a', 'b'] r (runTimeStr r))) :=
  c4_lab_merge_amended ['R', '1'] ['F', 'E', ' ', 'L', 'a', 'b'] labSlots3
    (by decide) (by decide)

-- ## Claim C10

theorem mem_insSorted {α : Type} (le : α → α → Bool) (x a : α) :
    ∀ l, a ∈ insSorted le x l ↔ a = x ∨ a ∈ l := by
  intro l
  induction l with
  | nil => simp [insSorted]
  | cons y ys ih =>
    show a ∈ (if le x y then x :: y :: ys else y :: insSorted le x ys) ↔ _
    by_cases h : le x y
    · rw [if_pos h]
      simp
    · rw [if_neg h]
      simp only [List.mem_cons, ih]
      tauto

theorem mem_insSort {α : Type} (le : α → α → Bool) (a : α) :
    ∀ l, a ∈ insSort le l ↔ a ∈ l := by
  intro l
  induction l with
  | nil => simp [insSort]
  | cons x xs ih =>
    show a ∈ insSorted le x (insSort le xs) ↔ _
    rw [mem_insSorted]
    simp [ih]

theorem mergeRunList_fields (name txt : JStr) :
    ∀ (runs : List (List ScheduleEntry)) (rs : List SearchResult),
      mergeRunList name txt runs = .ok rs →
      ∀ r ∈ rs, r.classroom = name ∧ r.«class» = txt := by
  intro runs
  induction runs with
  | nil =>
    intro rs h r hr
    have h2 : ([] : List SearchResult) = rs := Except.ok.inj h
    rw [← h2] at hr
    simp at hr
  | cons run rest ih =>
    intro rs h r hr
    simp only [mergeRunList] at h
    cases ht : runTime run with
    | error e =>
      rw [ht] at h
      simp at h
    | ok t =>
      rw [ht] at h
      cases hm : mergeRunList name txt rest with
      | error e =>
        rw [hm] at h
        simp at h
      | ok more =>
        rw [hm] at h
        have h2 := Except.ok.inj h
        rw [← h2] at hr
        rcases List.mem_cons.mp hr with hr | hr
        · subst hr
          exact ⟨rfl, rfl⟩
        · exact ih more hm r hr

theorem processGroup_fields (name txt : JStr) (slots : List ScheduleEntry)
    (rs : List SearchResult) (h : processGroup name txt slots = .ok rs) :
    ∀ r ∈ rs, r.classroom = name ∧ r.«class» = txt := by
  simp only [processGroup] at h
  by_cases hl : includesLab txt = false
  · rw [if_pos hl] at h
    have h2 := Except.ok.inj h
    intro r hr
    rw [← h2] at hr
    obtain ⟨s, -, hs⟩ := List.mem_map.mp hr
    rw [← hs]
    exact ⟨rfl, rfl⟩
  · rw [if_neg hl] at h
    exact mergeRunList_fields name txt _ rs h

theorem goodMap_nil (term : JStr) (cls : List Classroom) : goodMap term cls [] := by
  intro p hp
  simp at hp

theorem addToMap_good {term : JStr} {cls : List Classroom} {k : JStr}
    {v : ScheduleEntry}
    (hv : ∃ c ∈ cls, k = c.name ++ '|' :: v.«class» ∧ v ∈ c.schedule ∧
      matchesTerm term c.name v = true) :
    ∀ m, goodMap term cls m → goodMap term cls (addToMap k v m) := by
  intro m
  induction m with
  | nil =>
    intro _ p hp
    simp only [addToMap, List.mem_singleton] at hp
    subst hp
    refine ⟨by simp, ?_⟩
    intro s hs
    simp only [List.mem_singleton] at hs
    subst hs
    exact hv
  | cons q rest ih =>
    obtain ⟨k2, vs⟩ := q
    intro hm p hp
    by_cases hk : k2 = k
    · rw [show addToMap k v ((k2, vs) :: rest) = (k2, vs ++ [v]) :: rest from by
        simp [addToMap, hk]] at hp
      rcases List.mem_cons.mp hp with hp | hp
      · subst hp
        have hq := hm (k2, vs) (List.mem_cons_self _ _)
        refine ⟨by simp, ?_⟩
        intro s hs
        rcases List.mem_append.mp hs with hs | hs
        · exact hq.2 s hs
        · simp only [List.mem_singleton] at hs
          subst hs
          rw [show ((k2, vs ++ [s]) : JStr × List ScheduleEntry).1 = k from hk]
          exact hv
      · exact hm p (List.mem_cons_of_mem _ hp)
    · rw [show addToMap k v ((k2, vs) :: rest) = (k2, vs) :: addToMap k v rest from by
        simp [addToMap, hk]] at hp
      rcases List.mem_cons.mp hp with hp | hp
      · subst hp
        exact hm (k2, vs) (List.mem_cons_self _ _)
      · exact ih (fun q2 hq2 => hm q2 (List.mem_cons_of_mem _ hq2)) p hp

theorem collectRow_good {term : JStr} {cls0 : List Classroom} {c : Classroom}
    (hc : c ∈ cls0) :
    ∀ (ss : List ScheduleEntry) (m : GroupMap),
      (∀ s ∈ ss, s ∈ c.schedule) → goodMap term cls0 m →
      goodMap term cls0 (collectRow term c ss m) := by
  intro ss
  induction ss with
  | nil => intro m _ hm; exact hm
  | cons s rest ih =>
    intro m hss hm
    show goodMap term cls0 (collectRow term c rest
      (if matchesTerm term c.name s then
        addToMap (c.name ++ '|' :: s.«class») s m
      else m))
    apply ih _ (fun x hx => hss x (List.mem_cons_of_mem _ hx))
    by_cases hmt : matchesTerm term c.name s = true
    · rw [if_pos hmt]
      exact addToMap_good ⟨c, hc, rfl, hss s (List.mem_cons_self _ _), hmt⟩ m hm
    · rw [if_neg hmt]
      exact hm

theorem collectAll_good {term : JStr} (cls0 : List Classroom) :
    ∀ (cls : List Classroom) (m : GroupMap),
      (∀ c ∈ cls, c ∈ cls0) → goodMap term cls0 m →
      goodMap term cls0 (collectAll term cls m) := by
  intro cls
  induction cls with
  | nil => intro m _ hm; exact hm
  | cons c rest ih =>
    intro m hsub hm
    show goodMap term cls0 (collectAll term rest (collectRow term c c.schedule m))
    apply ih _ (fun x hx => hsub x (List.mem_cons_of_mem _ hx))
    exact collectRow_good (hsub c (List.mem_cons_self _ _)) c.schedule m
      (fun s hs => hs) hm

theorem collectHits_good (term : JStr) (cls : List Classroom) :
    goodMap term cls (collectHits term cls) :=
  collectAll_good cls cls [] (fun _ hc => hc) (goodMap_nil term cls)

theorem splitChar_not_mem {sep : Char} :
    ∀ {l : JStr}, sep ∉ l → splitChar sep l = [l] := by
  intro l
  induction l with
  | nil => intro _; rfl
  | cons c cs ih =>
    intro h
    have hc : ¬(c = sep) := fun he => h (he ▸ List.mem_cons_self c cs)
    show (if c = sep then [] :: splitChar sep cs
          else match splitChar sep cs with
               | [] => [[c]]
               | p :: ps => (c :: p) :: ps) = [c :: cs]
    rw [if_neg hc, ih fun hm => h (List.mem_cons_of_mem _ hm)]

theorem splitChar_append {sep : Char} :
    ∀ {a : JStr} (b : JStr), sep ∉ a → sep ∉ b →
      splitChar sep (a ++ sep :: b) = [a, b] := by
  intro a
  induction a with
  | nil =>
    intro b _ hb
    show (if sep = sep then [] :: splitChar sep b
          else match splitChar sep b with
               | [] => [[sep]]
               | p :: ps => (sep :: p) :: ps) = [[], b]
    rw [if_pos rfl, splitChar_not_mem hb]
  | cons c cs ih =>
    intro b ha hb
    have hc : ¬(c = sep) := fun he => ha (he ▸ List.mem_cons_self c cs)
    show (if c = sep then [] :: splitChar sep (cs ++ sep :: b)
          else match splitChar sep (cs ++ sep :: b) with
               | [] => [[c]]
               | p :: ps => (c :: p) :: ps) = [c :: cs, b]
    rw [if_neg hc, ih b (fun hm => ha (List.mem_cons_of_mem _ hm)) hb]

theorem processGroups_mem :
    ∀ (m : GroupMap) (rs : List SearchResult), processGroups m = .ok rs →
      ∀ r ∈ rs, ∃ p ∈ m, ∃ prs,
        processGroup ((splitChar '|' p.1).getD 0 [])
          ((splitChar '|' p.1).getD 1 []) p.2 = .ok prs ∧ r ∈ prs := by
  intro m
  induction m with
  | nil =>
    intro rs h r hr
    have h2 : ([] : List SearchResult) = rs := Except.ok.inj h
    rw [← h2] at hr
    simp at hr
  | cons q rest ih =>
    obtain ⟨k, ss⟩ := q
    intro rs h r hr
    simp only [processGroups] at h
    cases hpg : processGroup ((splitChar '|' k).getD 0 [])
        ((splitChar '|' k).getD 1 []) ss with
    | error e =>
      rw [hpg] at h
      simp at h
    | ok prs =>
      rw [hpg] at h
      cases hrest : processGroups rest with
      | error e =>
        rw [hrest] at h
        simp at h
      | ok more =>
        rw [hrest] at h
        have h2 := Except.ok.inj h
        rw [← h2] at hr
        rcases List.mem_append.mp hr with hr | hr
        · exact ⟨(k, ss), List.mem_cons_self _ _, prs, hpg, hr⟩
        · obtain ⟨p, hp, prs2, hpg2, hr2⟩ := ih more hrest r hr
          exact ⟨p, List.mem_cons_of_mem _ hp, prs2, hpg2, hr2⟩

/-- C10 (confirmed): when no classroom name and no schedule-entry class
text contains the bar character, every result searchClasses emits has its
classroom field equal to the name of a classroom it came from and its
class field equal to the class text of a matching slot of that classroom;
the bar-joined composite key splits back into exactly the pair it was
built from. -/
theorem c10_grouping_key (cls : List Classroom) (q : JStr)
    (rs : List SearchResult) (r : SearchResult)
    (hbar : ∀ c ∈ cls, '|' ∉ c.name ∧ ∀ s ∈ c.schedule, '|' ∉ s.«class»)
    (hok : searchClasses cls q = .ok rs) (hr : r ∈ rs) :
    ∃ c ∈ cls, r.classroom = c.name ∧
      ∃ s ∈ c.schedule, r.«class» = s.«class» ∧
        matchesTerm (trim (jstrToLower q)) c.name s = true := by
  simp only [searchClasses] at hok
  by_cases hq : q = [] ∨ trim q = []
  · rw [if_pos hq] at hok
    have h2 : ([] : List SearchResult) = rs := Except.ok.inj hok
    rw [← h2] at hr
    simp at hr
  · rw [if_neg hq] at hok
    cases hpg : processGroups (collectHits (trim (jstrToLower q)) cls) with
    | error e =>
      rw [hpg] at hok
      simp at hok
    | ok results =>
      rw [hpg] at hok
      have h2 := Except.ok.inj hok
      rw [← h2] at hr
      have hr2 := (mem_insSort resLe r results).mp hr
      obtain ⟨p, hp, prs, hpg2, hrp⟩ := processGroups_mem _ results hpg r hr2
      have hgood := collectHits_good (trim (jstrToLower q)) cls p hp
      obtain ⟨s0, hs0⟩ := List.exists_mem_of_ne_nil _ hgood.1
      obtain ⟨c, hc, hkey, hsched, hmatch⟩ := hgood.2 s0 hs0
      have hsplit : splitChar '|' p.1 = [c.name, s0.«class»] := by
        rw [hkey]
        exact splitChar_append s0.«class» (hbar c hc).1 ((hbar c hc).2 s0 hsched)
      have hfields := processGroup_fields _ _ _ _ hpg2 r hrp
      rw [hsplit] at hfields
      exact ⟨c, hc, hfields.1, s0, hsched, hfields.2, hmatch⟩

/-- Witness for c10_grouping_key: the merged Syllabus result of roomSyl
under the query syl. -/
theorem c10_grouping_key_witness :
    ∃ c ∈ [roomSyl], rC10.classroom = c.name ∧
      ∃ s ∈ c.schedule, rC10.«class» = s.«class» ∧
        matchesTerm (trim (jstrToLower ['s', 'y', 'l'])) c.name s = true :=
  c10_grouping_key [roomSyl] ['s', 'y', 'l'] [rC10] rC10 (by decide) (by decide)
    (by decide)
